import Mathlib

/-!
Verification of the rename-computation engine of the pattern-renamer
application (src/pattern_renamer/main/main_model.py).

The engine is embedded shallowly:

* Paths are strings; the fragment of pathlib.PurePosixPath the code uses
  (parsing, name, stem, parent, the `/` join, str) is embedded as the
  PosixPath structure together with parsePath and pathStr.
* The Python re module is opaque to the code under verification, so it is
  modelled by the RegexEngine interface (whether a pattern compiles, and a
  substitution function that can fail the way re.sub raises re.error on an
  invalid replacement template).  The theorems below are proved for every
  engine; the executable litEngine instance, which is faithful to Python re
  on literal patterns and backslash-free replacements, is used to evaluate
  concrete runs.
* The filesystem is a finite set of paths; Path.exists is membership and
  Path.rename moves a path, failing when the source is absent or the
  destination is present.
* recompute is a pure function from the inbound properties (picked paths,
  regex text, replacement text, rename target) and the previously published
  renamed-paths value to the outbound properties.  The previous value
  matters because the Python code leaves self.renamed_paths untouched when
  the substitution raises re.error.
-/

set_option autoImplicit false

namespace PatternRenamer

/-! ## PurePosixPath fragment -/

/-- Splits a character list on the slash character; mirrors how
pathlib.PurePosixPath splits a path string into components.  The result is
always non-empty. -/
def splitOnSlash : List Char → List (List Char)
  | [] => [[]]
  | c :: rest =>
    if c = '/' then [] :: splitOnSlash rest
    else
      match splitOnSlash rest with
      | [] => [[c]]
      | h :: t => (c :: h) :: t

/-- Number of leading slash characters, used to reconstruct the root the way
pathlib.PurePosixPath does (one slash or three and more collapse to "/", and
exactly two are kept as "//"). -/
def leadingSlashes : List Char → Nat
  | [] => 0
  | c :: rest => if c = '/' then leadingSlashes rest + 1 else 0

/-- The root string corresponding to a count of leading slashes. -/
def rootOfCount (n : Nat) : String :=
  if n = 0 then "" else if n = 2 then "//" else "/"

/-- The parsed form of a PurePosixPath: a root ("", "/" or "//") and the
list of components, with empty and "." components dropped, as pathlib
does. -/
structure PosixPath where
  root : String
  parts : List String
deriving DecidableEq, Repr

/-- Embeds pathlib.PurePosixPath(s): derive the root from the leading
slashes and the parts by splitting on slashes and dropping empty and "."
components. -/
def parsePath (s : String) : PosixPath :=
  { root := rootOfCount (leadingSlashes s.data),
    parts := ((splitOnSlash s.data).map String.mk).filter
      (fun c => decide (c ≠ "" ∧ c ≠ ".")) }

/-- Joins components with slashes (no leading or trailing slash). -/
def joinParts : List String → String
  | [] => ""
  | [p] => p
  | p :: rest => p ++ "/" ++ joinParts rest

/-- Embeds str() of a PurePosixPath; an empty relative path prints as ".". -/
def pathStr (p : PosixPath) : String :=
  if p.root = "" then (if p.parts = [] then "." else joinParts p.parts)
  else p.root ++ joinParts p.parts

/-- Embeds PurePosixPath.name: the final component, or "" when there is
none. -/
def pathName (p : PosixPath) : String :=
  p.parts.getLast?.getD ""

/-- Embeds PurePosixPath.parent: drop the final component; the parent of a
root or of "." is itself. -/
def pathParent (p : PosixPath) : PosixPath :=
  if p.parts = [] then p else { root := p.root, parts := p.parts.dropLast }

/-- Embeds the PurePosixPath `/` operator on two parsed paths: an anchored
right operand replaces the left one. -/
def pathJoinPath (a b : PosixPath) : PosixPath :=
  if b.root ≠ "" then b else { root := a.root, parts := a.parts ++ b.parts }

/-- Embeds the PurePosixPath `/` operator with a raw string on the right. -/
def pathJoin (a : PosixPath) (s : String) : PosixPath :=
  pathJoinPath a (parsePath s)

/-- Index of the dot splitting name and suffix in CPython's
PurePath.suffix: the last dot, provided it is neither the first nor the
last character.  Returns none when the name has no real suffix. -/
def suffixDotIndex (name : List Char) : Option Nat :=
  match name.reverse.indexOf '.' with
  | 0 => none
  | k + 1 =>
    let i := name.length - (k + 2)
    if '.' ∈ name ∧ 0 < i then some i else none

/-- Embeds PurePosixPath.suffix on a name's characters. -/
def nameSuffix (name : List Char) : List Char :=
  match suffixDotIndex name with
  | some i => name.drop i
  | none => []

/-- Embeds PurePosixPath.stem on a name's characters. -/
def nameStem (name : List Char) : List Char :=
  match suffixDotIndex name with
  | some i => name.take i
  | none => name

/-- Embeds PurePosixPath.stem of a parsed path. -/
def pathStem (p : PosixPath) : String :=
  String.mk (nameStem (pathName p).data)

/-- Embeds PurePosixPath.with_stem: replace the final component by the new
stem followed by the old suffix.  (The ValueError pathlib raises on an
invalid or missing name is outside the scope of the claims and is not
modelled; the component is replaced unconditionally.) -/
def withStem (p : PosixPath) (newStem : String) : PosixPath :=
  let newName := String.mk (newStem.data ++ nameSuffix (pathName p).data)
  match p.parts with
  | [] => { root := p.root, parts := [newName] }
  | _ :: _ => { root := p.root, parts := p.parts.dropLast ++ [newName] }

/-! ## Regex engine interface -/

/-- Interface to the regex machinery (Python re) used by the model:
whether a pattern source compiles, and the substitution
re.compile(pattern).sub(replacement, input), which returns none when re.sub
raises re.error (invalid replacement template, e.g. a bad backreference). -/
structure RegexEngine where
  compiles : String → Bool
  sub : String → String → String → Option String

/-- Characters with a special meaning in a Python regular expression; a
pattern avoiding all of them is matched literally. -/
def regexSpecialChars : List Char :=
  ['\\', '^', '$', '.', '|', '?', '*', '+', '(', ')', '[', ']',
    Char.ofNat 123, Char.ofNat 125]

/-- Replaces every leftmost non-overlapping occurrence of the non-empty
literal pattern (first character headPat, rest tailPat) in the input by the
replacement, exactly as re.sub does for a literal pattern.  The skip
counter holds the number of already-matched pattern characters still to be
consumed, which keeps the recursion structural on the input. -/
def replaceAllAux (headPat : Char) (tailPat repl : List Char) :
    List Char → Nat → List Char
  | [], _ => []
  | _ :: rest, Nat.succ k => replaceAllAux headPat tailPat repl rest k
  | c :: rest, 0 =>
    if (headPat :: tailPat).isPrefixOf (c :: rest) then
      repl ++ replaceAllAux headPat tailPat repl rest tailPat.length
    else
      c :: replaceAllAux headPat tailPat repl rest 0

/-- Models re.compile(pattern).sub(repl, input) for patterns without
special regex characters.  A backslash in the replacement is treated as a
substitution error; this is faithful for the backreference replacements
used below (Python parses the replacement template eagerly and raises
re.error for an invalid escape or group reference even when the pattern
does not match).  An empty pattern matches at every position, so the
replacement is inserted around every character. -/
def litSub (pat repl input : String) : Option String :=
  if '\\' ∈ repl.data then none
  else
    match pat.data with
    | [] => some (String.mk (repl.data ++ input.data.flatMap (fun c => c :: repl.data)))
    | p :: ps => some (String.mk (replaceAllAux p ps repl.data input.data 0))

/-- An executable regex engine faithful to Python re on literal patterns
(no special characters) and on the replacements used in the concrete runs
below. -/
def litEngine : RegexEngine :=
  { compiles := fun pat => pat.data.all (fun c => decide (c ∉ regexSpecialChars)),
    sub := litSub }

/-! ## Model types (modelled from the spec)

The modules pattern_renamer.main.types.mistakes, rename_target and
app_state only declare plain tagged variants and enumerations; they are
modelled from the spec (section 3: Mistake is a tagged variant with
constructors InvalidRegex, InvalidReplacePattern, Duplicate(index),
Exists(index), InvalidDestination(index); RenameTarget is full | name |
stem; the app states are Empty, Renaming, Renamed). -/

/-- Modelled from the spec: the RenameTarget enumeration ("full" | "name" |
"stem"). -/
inductive RenameTarget where
  | full
  | name
  | stem
deriving DecidableEq, Repr

/-- Modelled from the spec: the AppState enumeration (Empty, Renaming,
Renamed). -/
inductive AppState where
  | empty
  | renaming
  | renamed
deriving DecidableEq, Repr

/-- Modelled from the spec: the Mistake tagged variant; index-carrying
constructors are the destination mistakes. -/
inductive Mistake where
  | invalidRegex
  | invalidReplacePattern
  | duplicate (index : Nat)
  | alreadyExists (index : Nat)
  | invalidDestination (index : Nat)
deriving DecidableEq, Repr

/-! ## The per-path rename functions -/

/-- Embeds MainModel._rename_using_full_path: substitute across the whole
path string. -/
def renameUsingFullPath (E : RegexEngine) (regex replacePattern path : String) :
    Option String :=
  E.sub regex replacePattern path

/-- Embeds MainModel._rename_using_name: p = Path(path); substitute in
p.name; return str(p.parent / name). -/
def renameUsingName (E : RegexEngine) (regex replacePattern path : String) :
    Option String :=
  (E.sub regex replacePattern (pathName (parsePath path))).map
    (fun newName => pathStr (pathJoin (pathParent (parsePath path)) newName))

/-- Embeds MainModel._rename_using_stem: p = Path(path); name =
p.with_stem(sub(p.stem)); return str(p.parent / name).  Note that the code
joins the parent with the whole with_stem path, not just its final
component. -/
def renameUsingStem (E : RegexEngine) (regex replacePattern path : String) :
    Option String :=
  (E.sub regex replacePattern (pathStem (parsePath path))).map
    (fun newStem =>
      pathStr (pathJoinPath (pathParent (parsePath path))
        (withStem (parsePath path) newStem)))

/-- Embeds MainModel._rename: dispatch on the rename target. -/
def rename (E : RegexEngine) (regex replacePattern : String)
    (target : RenameTarget) (path : String) : Option String :=
  match target with
  | RenameTarget.full => renameUsingFullPath E regex replacePattern path
  | RenameTarget.name => renameUsingName E regex replacePattern path
  | RenameTarget.stem => renameUsingStem E regex replacePattern path

/-- Embeds the list comprehension in recompute: rename every picked path in
order, aborting at the first re.error the way the comprehension propagates
the exception. -/
def renameAll (E : RegexEngine) (regex replacePattern : String)
    (target : RenameTarget) : List String → Option (List String)
  | [] => some []
  | path :: rest =>
    match rename E regex replacePattern target path with
    | none => none
    | some r =>
      match renameAll E regex replacePattern target rest with
      | none => none
      | some rs => some (r :: rs)

/-! ## Conflict detection -/

/-- One bucket of _detect_renamed_paths_mistakes: a renamed-path value with
the index of its first occurrence and the number of occurrences so far.
The Python code keeps the full index list in a defaultdict but only ever
reads its first element and its length. -/
def bucketFind (v : String) : List (String × Nat × Nat) → Option (Nat × Nat)
  | [] => none
  | (w, f, c) :: rest => if w = v then some (f, c) else bucketFind v rest

/-- Records one more occurrence of a renamed-path value at index i, keeping
the first occurrence index. -/
def bucketAdd (v : String) (i : Nat) :
    List (String × Nat × Nat) → List (String × Nat × Nat)
  | [] => [(v, i, 1)]
  | (w, f, c) :: rest =>
    if w = v then (w, f, c + 1) :: rest else (w, f, c) :: bucketAdd v i rest

/-- The bucket state after processing a list of renamed-path values whose
first element sits at index i; detectAux threads exactly this state. -/
def bucketsFold : List String → Nat → List (String × Nat × Nat) →
    List (String × Nat × Nat)
  | [], _, B => B
  | v :: rest, i, B => bucketsFold rest (i + 1) (bucketAdd v i B)

/-- The duplicate mistakes one loop iteration of
_detect_renamed_paths_mistakes emits at index i, given the bucket entry of
the current renamed path: on the second occurrence of a value (stored
count 1) the first occurrence's index is reported too, and every repeat
reports its own index. -/
def dupMistakes : Option (Nat × Nat) → Nat → List Mistake
  | some (first, cnt), i =>
    (if cnt = 1 then [Mistake.duplicate first] else []) ++ [Mistake.duplicate i]
  | none, _ => []

/-- Embeds the loop body of MainModel._detect_renamed_paths_mistakes over
the zipped (picked, renamed) pairs: duplicate detection through the
buckets, destination validation (validate_filepath is the external
predicate validPath), and the existence collision check (Path.exists is
the external predicate fsExists). -/
def detectAux (validPath fsExists : String → Bool) :
    List (String × String) → Nat → List (String × Nat × Nat) → List Mistake
  | [], _, _ => []
  | (pickedPath, renamedPath) :: rest, i, buckets =>
    dupMistakes (bucketFind renamedPath buckets) i ++
    (if validPath renamedPath then [] else [Mistake.invalidDestination i]) ++
    (if renamedPath ≠ pickedPath ∧ fsExists renamedPath = true then
      [Mistake.alreadyExists i] else []) ++
    detectAux validPath fsExists rest (i + 1) (bucketAdd renamedPath i buckets)

/-- Embeds MainModel._detect_renamed_paths_mistakes. -/
def detectRenamedPathsMistakes (validPath fsExists : String → Bool)
    (renamedPaths pickedPaths : List String) : List Mistake :=
  detectAux validPath fsExists (pickedPaths.zip renamedPaths) 0 []

/-- Specification of a bucket lookup after folding a prefix of renamed
values over an initial bucket state: an entry already present gains the
prefix's occurrences, a fresh value present in the prefix maps to its
first occurrence index and its occurrence count. -/
def bucketSpec (u : String) (pre : List String) (i : Nat) :
    Option (Nat × Nat) → Option (Nat × Nat)
  | some fc => some (fc.1, fc.2 + pre.count u)
  | none => if u ∈ pre then some (i + pre.indexOf u, pre.count u) else none

/-- Specification of how many Duplicate(j) mistakes the remainder of the
detection loop emits, given the prefix of renamed values already processed
and the renamed values still to process: an index inside the prefix is
reported (once) exactly when its value was unique in the prefix and recurs
later; an index in the remainder is reported (once) exactly when its value
occurs at least twice overall. -/
def dupCountSpec (pre snds : List String) (j : Nat) : Nat :=
  (pre.get? j).elim
    ((snds.get? (j - pre.length)).elim 0
      (fun u => if 2 ≤ (pre ++ snds).count u then 1 else 0))
    (fun u => if pre.count u = 1 ∧ u ∈ snds then 1 else 0)

/-- The number of Duplicate(j) mistakes one loop iteration emits when it
processes the renamed value r after the prefix pre (so at index
pre.length): the current index is reported when r was already seen, and
the first occurrence's index is reported when this is the second
occurrence. -/
def dupEmit (pre : List String) (r : String) (j : Nat) : Nat :=
  if r ∈ pre then
    (if pre.count r = 1 ∧ j = pre.indexOf r then 1 else 0) +
    (if j = pre.length then 1 else 0)
  else 0

/-! ## recompute -/

/-- The inbound properties of the model. -/
structure RecomputeInput where
  pickedPaths : List String
  regex : String
  replacePattern : String
  renameTarget : RenameTarget
deriving DecidableEq, Repr

/-- The outbound properties recompute publishes.  renamedPaths is an Option
because the Python property starts out unset (None) and keeps its previous
value when the substitution raises. -/
structure RecomputeOutput where
  appState : AppState
  renamedPaths : Option (List String)
  mistakes : List Mistake
  isApplyEnabled : Bool
deriving DecidableEq, Repr

/-- Whether the compiled-regex variable of recompute is non-None: the regex
text is non-empty and compiles. -/
def regexCompiles (E : RegexEngine) (regex : String) : Bool :=
  if regex = "" then false else E.compiles regex

/-- The mistakes recompute collects while parsing the regex. -/
def regexMistakes (E : RegexEngine) (regex : String) : List Mistake :=
  if regex ≠ "" ∧ E.compiles regex = false then [Mistake.invalidRegex] else []

/-- Embeds the final assignment of recompute: the truthy conjunction
regex and replace_pattern and picked_paths and picked_paths !=
renamed_paths and not mistakes, coerced to the boolean property. -/
def applyEnabled (inp : RecomputeInput) (renamedPaths : Option (List String))
    (mistakes : List Mistake) : Bool :=
  decide (inp.regex ≠ "" ∧ inp.replacePattern ≠ "" ∧ inp.pickedPaths ≠ [] ∧
    renamedPaths ≠ some inp.pickedPaths ∧ mistakes = [])

/-- Embeds the app-state assignment at the top of recompute. -/
def computeAppState (inp : RecomputeInput) : AppState :=
  if inp.pickedPaths = [] then AppState.empty else AppState.renaming

/-- The substitution branch of recompute, split on the outcome of the list
comprehension: on re.error the renamed-paths property keeps its previous
value and exactly an InvalidReplacePattern mistake is added; on success the
fresh list is published and conflict detection runs over it. -/
def recomputeSubBranch (E : RegexEngine) (validPath fsExists : String → Bool)
    (inp : RecomputeInput) (oldRenamedPaths : Option (List String)) :
    Option (List String) → RecomputeOutput
  | none =>
    let mistakes := regexMistakes E inp.regex ++ [Mistake.invalidReplacePattern]
    { appState := computeAppState inp,
      renamedPaths := oldRenamedPaths,
      mistakes := mistakes,
      isApplyEnabled := applyEnabled inp oldRenamedPaths mistakes }
  | some rs =>
    let mistakes := regexMistakes E inp.regex ++
      detectRenamedPathsMistakes validPath fsExists rs inp.pickedPaths
    { appState := computeAppState inp,
      renamedPaths := some rs,
      mistakes := mistakes,
      isApplyEnabled := applyEnabled inp (some rs) mistakes }

/-- Embeds MainModel.recompute as a pure function of the inbound properties
and the previously published renamed-paths value. -/
def recompute (E : RegexEngine) (validPath fsExists : String → Bool)
    (inp : RecomputeInput) (oldRenamedPaths : Option (List String)) :
    RecomputeOutput :=
  if regexCompiles E inp.regex = true ∧ inp.replacePattern ≠ "" then
    recomputeSubBranch E validPath fsExists inp oldRenamedPaths
      (renameAll E inp.regex inp.replacePattern inp.renameTarget inp.pickedPaths)
  else
    { appState := computeAppState inp,
      renamedPaths := some inp.pickedPaths,
      mistakes := regexMistakes E inp.regex,
      isApplyEnabled := applyEnabled inp (some inp.pickedPaths)
        (regexMistakes E inp.regex) }

/-- The per-path function recompute effectively applies to each picked path
whenever it publishes a renamed list: the rename when the compiled regex
and the replacement are in play, the identity copy otherwise. -/
def renameOne (E : RegexEngine) (regex replacePattern : String)
    (target : RenameTarget) (path : String) : Option String :=
  if regexCompiles E regex = true ∧ replacePattern ≠ "" then
    rename E regex replacePattern target path
  else
    some path

/-! ## Apply and undo -/

/-- The filesystem rename primitive on a set of paths: move src to dst,
failing when src is absent or dst is already present. -/
def fsRename (src dst : String) (fs : Finset String) : Option (Finset String) :=
  if src ∈ fs ∧ dst ∉ fs then some (insert dst (fs.erase src)) else none

/-- Runs the renames picked→renamed sequentially, failing as soon as one
fails. -/
def applyList : List (String × String) → Finset String → Option (Finset String)
  | [], fs => some fs
  | (p, r) :: rest, fs =>
    match fsRename p r fs with
    | none => none
    | some fs' => applyList rest fs'

/-- Runs the renames renamed→picked sequentially in the same order, failing
as soon as one fails. -/
def undoList : List (String × String) → Finset String → Option (Finset String)
  | [], fs => some fs
  | (p, r) :: rest, fs =>
    match fsRename r p fs with
    | none => none
    | some fs' => undoList rest fs'

/-- The generator both apply_renaming and undo_renaming iterate: the zipped
(picked, renamed) pairs whose two components differ. -/
def renamePairs (pickedPaths renamedPaths : List String) : List (String × String) :=
  (pickedPaths.zip renamedPaths).filter (fun pr => decide (pr.1 ≠ pr.2))

/-- Embeds the filesystem effect of MainModel.apply_renaming. -/
def applyRenaming (pickedPaths renamedPaths : List String) (fs : Finset String) :
    Option (Finset String) :=
  applyList (renamePairs pickedPaths renamedPaths) fs

/-- Embeds the filesystem effect of MainModel.undo_renaming. -/
def undoRenaming (pickedPaths renamedPaths : List String) (fs : Finset String) :
    Option (Finset String) :=
  undoList (renamePairs pickedPaths renamedPaths) fs

/-! ## Lemmas about the path model -/

/-- A good component: a non-empty, non-dot component without a slash, i.e.
exactly what parsing can produce as an element of parts. -/
def goodComp (c : String) : Prop :=
  c ≠ "" ∧ c ≠ "." ∧ '/' ∉ c.data

instance (c : String) : Decidable (goodComp c) := by
  unfold goodComp
  infer_instance

/-- Well-formedness of a parsed path: the root is one of the three pathlib
roots and every component is good. -/
def PathWF (p : PosixPath) : Prop :=
  (p.root = "" ∨ p.root = "/" ∨ p.root = "//") ∧ ∀ c ∈ p.parts, goodComp c

theorem splitOnSlash_ne_nil (l : List Char) : splitOnSlash l ≠ [] := by
  cases l with
  | nil => simp [splitOnSlash]
  | cons c rest =>
    by_cases h : c = '/'
    · simp [splitOnSlash, h]
    · simp only [splitOnSlash, if_neg h]
      cases splitOnSlash rest <;> simp

theorem splitOnSlash_no_slash {l : List Char} (h : '/' ∉ l) :
    splitOnSlash l = [l] := by
  induction l with
  | nil => rfl
  | cons c rest ih =>
    have hc : c ≠ '/' := fun hc => h (hc ▸ List.mem_cons_self c rest)
    have hr : '/' ∉ rest := fun hr => h (List.mem_cons_of_mem c hr)
    simp only [splitOnSlash, if_neg hc, ih hr]

theorem splitOnSlash_append {x : List Char} (r : List Char) (h : '/' ∉ x) :
    splitOnSlash (x ++ '/' :: r) = x :: splitOnSlash r := by
  induction x with
  | nil => simp [splitOnSlash]
  | cons c rest ih =>
    have hc : c ≠ '/' := fun hc => h (hc ▸ List.mem_cons_self c rest)
    have hr : '/' ∉ rest := fun hr => h (List.mem_cons_of_mem c hr)
    have h2 := ih hr
    simp only [List.cons_append, splitOnSlash, if_neg hc, List.append_eq, h2]

theorem no_slash_of_mem_splitOnSlash {l : List Char} {y : List Char}
    (h : y ∈ splitOnSlash l) : '/' ∉ y := by
  induction l generalizing y with
  | nil =>
    simp only [splitOnSlash, List.mem_singleton] at h
    simp [h]
  | cons c rest ih =>
    by_cases hc : c = '/'
    · simp only [splitOnSlash, if_pos hc, List.mem_cons] at h
      rcases h with h | h
      · simp [h]
      · exact ih h
    · simp only [splitOnSlash, if_neg hc] at h
      rcases hsp : splitOnSlash rest with _ | ⟨h₀, t⟩
      · exact absurd hsp (splitOnSlash_ne_nil rest)
      · rw [hsp] at h
        rcases List.mem_cons.mp h with h | h
        · subst h
          intro hmem
          rcases List.mem_cons.mp hmem with h | h
          · exact hc h.symm
          · exact ih (hsp ▸ List.mem_cons_self h₀ t) h
        · exact ih (hsp ▸ List.mem_cons_of_mem h₀ h)

theorem leadingSlashes_cons_ne {c : Char} (l : List Char) (h : c ≠ '/') :
    leadingSlashes (c :: l) = 0 := by
  simp [leadingSlashes, h]

theorem joinParts_data_cons (x : String) {rest : List String} (h : rest ≠ []) :
    (joinParts (x :: rest)).data = x.data ++ '/' :: (joinParts rest).data := by
  cases rest with
  | nil => exact absurd rfl h
  | cons y t =>
    show (x ++ "/" ++ joinParts (y :: t)).data = _
    rw [String.data_append, String.data_append, List.append_assoc]
    rfl

theorem splitOnSlash_joinParts {parts : List String} (hne : parts ≠ [])
    (h : ∀ c ∈ parts, '/' ∉ c.data) :
    splitOnSlash (joinParts parts).data = parts.map String.data := by
  induction parts with
  | nil => exact absurd rfl hne
  | cons x rest ih =>
    cases rest with
    | nil =>
      show splitOnSlash x.data = [x.data]
      exact splitOnSlash_no_slash (h x (List.mem_cons_self x []))
    | cons y t =>
      rw [joinParts_data_cons x (by simp)]
      rw [splitOnSlash_append _ (h x (List.mem_cons_self x (y :: t)))]
      rw [ih (by simp) (fun c hc => h c (List.mem_cons_of_mem x hc))]
      rfl

theorem parsePath_wf (s : String) : PathWF (parsePath s) := by
  constructor
  · show rootOfCount (leadingSlashes s.data) = "" ∨
      rootOfCount (leadingSlashes s.data) = "/" ∨
      rootOfCount (leadingSlashes s.data) = "//"
    unfold rootOfCount
    split
    · exact Or.inl rfl
    · split
      · exact Or.inr (Or.inr rfl)
      · exact Or.inr (Or.inl rfl)
  · intro c hc
    simp only [parsePath, List.mem_filter, List.mem_map, decide_eq_true_eq] at hc
    obtain ⟨⟨y, hy, hyc⟩, hne, hnd⟩ := hc
    refine ⟨hne, hnd, ?_⟩
    subst hyc
    exact no_slash_of_mem_splitOnSlash hy

theorem parsePath_single {n : String} (h : goodComp n) :
    parsePath n = { root := "", parts := [n] } := by
  obtain ⟨hne, hnd, hns⟩ := h
  have hdata : n.data ≠ [] := by
    intro h0
    exact hne (by cases n with | mk d => simp at h0; simp [h0])
  unfold parsePath
  rcases hd : n.data with _ | ⟨c, rest⟩
  · exact absurd hd hdata
  · have hc : c ≠ '/' := by
      intro hc
      exact hns (hd ▸ hc ▸ List.mem_cons_self c rest)
    rw [leadingSlashes_cons_ne rest hc]
    have : splitOnSlash (c :: rest) = [c :: rest] :=
      splitOnSlash_no_slash (hd ▸ hns)
    rw [this]
    simp only [rootOfCount, if_pos rfl, List.map_cons, List.map_nil]
    have hmk : String.mk (c :: rest) = n := by rw [← hd]
    rw [hmk]
    simp [List.filter, hne, hnd]

theorem filter_good_eq_self {l : List String} (hl : ∀ c ∈ l, goodComp c) :
    l.filter (fun c => decide (c ≠ "" ∧ c ≠ ".")) = l := by
  apply List.filter_eq_self.mpr
  intro c hc
  exact decide_eq_true ⟨(hl c hc).1, (hl c hc).2.1⟩

theorem filter_good_cons_empty (l : List String) :
    List.filter (fun c => decide (c ≠ "" ∧ c ≠ ".")) ("" :: l) =
    List.filter (fun c => decide (c ≠ "" ∧ c ≠ ".")) l :=
  List.filter_cons_of_neg (by decide)

theorem map_mk_map_data (l : List String) :
    (l.map String.data).map String.mk = l := by
  rw [List.map_map]
  have h : (String.mk ∘ String.data) = id := by
    funext s
    cases s
    rfl
  rw [h, List.map_id]

theorem joinParts_head {x : String} (rest : List String) (hx : goodComp x) :
    ∃ c t, (joinParts (x :: rest)).data = c :: t ∧ c ≠ '/' := by
  rcases hd : x.data with _ | ⟨c, t⟩
  · refine absurd ?_ hx.1
    cases x with
    | mk d =>
      simp only [String.data] at hd
      simp [hd]
  · have hc : c ≠ '/' := by
      intro hc
      exact hx.2.2 (hd ▸ hc ▸ List.mem_cons_self c t)
    rcases rest with _ | ⟨y, t'⟩
    · exact ⟨c, t, hd, hc⟩
    · refine ⟨c, t ++ '/' :: (joinParts (y :: t')).data, ?_, hc⟩
      rw [joinParts_data_cons x (by simp), hd]
      rfl

theorem parsePath_pathStr {p : PosixPath} (h : PathWF p) :
    parsePath (pathStr p) = p := by
  obtain ⟨root, parts⟩ := p
  obtain ⟨hroot, hparts⟩ := h
  simp only at hroot hparts
  rcases hps : parts with _ | ⟨x, rest⟩
  · subst hps
    rcases hroot with h0 | h0 | h0 <;> subst h0 <;> decide
  · subst hps
    have hslash : ∀ c ∈ x :: rest, '/' ∉ c.data := fun c hc => (hparts c hc).2.2
    have hjoin : splitOnSlash (joinParts (x :: rest)).data =
        (x :: rest).map String.data :=
      splitOnSlash_joinParts (by simp) hslash
    obtain ⟨c, t, hct, hc⟩ :=
      joinParts_head rest (hparts x (List.mem_cons_self x rest))
    rcases hroot with h0 | h0 | h0 <;> subst h0
    · -- root ""
      show parsePath (if ("" : String) = "" then _ else _) = _
      rw [if_pos rfl, if_neg (by simp : (x :: rest : List String) ≠ [])]
      unfold parsePath
      rw [hct, leadingSlashes_cons_ne _ hc, ← hct, hjoin, map_mk_map_data,
        filter_good_eq_self hparts]
      simp [rootOfCount]
    · -- root "/"
      show parsePath (if ("/" : String) = "" then _ else "/" ++ joinParts (x :: rest)) = _
      rw [if_neg (by decide)]
      unfold parsePath
      have hdata : ("/" ++ joinParts (x :: rest)).data =
          '/' :: (joinParts (x :: rest)).data := by
        rw [String.data_append]
        rfl
      rw [hdata, hct]
      have hlead : leadingSlashes ('/' :: c :: t) = 1 := by
        simp [leadingSlashes, hc]
      rw [hlead, ← hct]
      have hsplit : splitOnSlash ('/' :: (joinParts (x :: rest)).data) =
          [] :: splitOnSlash (joinParts (x :: rest)).data := by
        show splitOnSlash (([] : List Char) ++ '/' :: _) = _
        rw [splitOnSlash_append _ (by simp)]
      rw [hsplit, hjoin]
      show PosixPath.mk _ ((([] : List Char) :: (x :: rest).map String.data).map
        String.mk |>.filter _) = _
      rw [List.map_cons, map_mk_map_data]
      show PosixPath.mk _ (List.filter _ ("" :: x :: rest)) = _
      rw [filter_good_cons_empty, filter_good_eq_self hparts]
      simp [rootOfCount]
    · -- root "//"
      show parsePath (if ("//" : String) = "" then _ else "//" ++ joinParts (x :: rest)) = _
      rw [if_neg (by decide)]
      unfold parsePath
      have hdata : ("//" ++ joinParts (x :: rest)).data =
          '/' :: '/' :: (joinParts (x :: rest)).data := by
        rw [String.data_append]
        rfl
      rw [hdata, hct]
      have hlead : leadingSlashes ('/' :: '/' :: c :: t) = 2 := by
        simp [leadingSlashes, hc]
      rw [hlead, ← hct]
      have hsplit : splitOnSlash ('/' :: '/' :: (joinParts (x :: rest)).data) =
          [] :: [] :: splitOnSlash (joinParts (x :: rest)).data := by
        show splitOnSlash (([] : List Char) ++ '/' ::
          (([] : List Char) ++ '/' :: _)) = _
        rw [splitOnSlash_append _ (by simp), splitOnSlash_append _ (by simp)]
      rw [hsplit, hjoin]
      show PosixPath.mk _ ((([] : List Char) :: ([] : List Char) ::
        (x :: rest).map String.data).map String.mk |>.filter _) = _
      rw [List.map_cons, List.map_cons, map_mk_map_data]
      show PosixPath.mk _ (List.filter _ ("" :: "" :: x :: rest)) = _
      rw [filter_good_cons_empty, filter_good_cons_empty,
        filter_good_eq_self hparts]
      simp [rootOfCount]

theorem pathParent_root (p : PosixPath) : (pathParent p).root = p.root := by
  unfold pathParent
  split <;> rfl

theorem pathParent_wf {p : PosixPath} (h : PathWF p) : PathWF (pathParent p) := by
  obtain ⟨hroot, hparts⟩ := h
  unfold pathParent
  split
  · exact ⟨hroot, hparts⟩
  · exact ⟨hroot, fun c hc => hparts c (List.dropLast_sublist p.parts |>.subset hc)⟩

/-!
Claim C9 concerns _rename_using_name.  The substitution is indeed applied
only to the final component, but the parent of the resulting path string is
the parent of the picked path only when the substituted name is a single
plain component: a substitution result containing a slash (or empty, or
".") changes or removes components, so the parent of the result moves.
-/

/-- C9 (amended): for the Name target the substitution is applied only to
the final path component — the result is exactly the picked path's parent
joined with the substituted name — and whenever the substituted name is a
plain component (non-empty, not ".", without a path separator) the parent
directory of the resulting renamed path equals the parent directory of the
picked path. -/
theorem c9_name_target_keeps_parent (E : RegexEngine)
    (regex replacePattern path n : String)
    (hsub : E.sub regex replacePattern (pathName (parsePath path)) = some n)
    (hn : goodComp n) :
    renameUsingName E regex replacePattern path =
      some (pathStr (pathJoinPath (pathParent (parsePath path))
        { root := "", parts := [n] })) ∧
    pathParent (parsePath (pathStr (pathJoinPath (pathParent (parsePath path))
        { root := "", parts := [n] }))) = pathParent (parsePath path) := by
  have hwf : PathWF (parsePath path) := parsePath_wf path
  have hn' : parsePath n = { root := "", parts := [n] } := parsePath_single hn
  constructor
  · unfold renameUsingName
    rw [hsub]
    show some (pathStr (pathJoinPath (pathParent (parsePath path)) (parsePath n))) = _
    rw [hn']
  · have hpwf : PathWF (pathParent (parsePath path)) := pathParent_wf hwf
    generalize hgen : pathParent (parsePath path) = par at hpwf ⊢
    obtain ⟨proot, pparts⟩ := par
    have hq : pathJoinPath (PosixPath.mk proot pparts) { root := "", parts := [n] } =
        PosixPath.mk proot (pparts ++ [n]) := by
      unfold pathJoinPath
      rw [if_neg (by simp)]
    rw [hq]
    have hqwf : PathWF (PosixPath.mk proot (pparts ++ [n])) := by
      refine ⟨hpwf.1, fun c hc => ?_⟩
      rcases List.mem_append.mp hc with hc | hc
      · exact hpwf.2 c hc
      · rw [List.mem_singleton.mp hc]
        exact hn
    rw [parsePath_pathStr hqwf]
    unfold pathParent
    rw [if_neg (by simp)]
    simp only [List.dropLast_concat]

/-- C9 (counterexample to the claim as stated): with the literal engine,
pattern "a" and replacement "b/c" on the picked path "d/a", the
substituted name contains a separator, the renamed path is "d/b/c", and
the parent directory of the renamed path ("d/b") differs from the parent
directory of the picked path ("d"). -/
theorem c9_name_target_counterexample :
    renameUsingName litEngine "a" "b/c" "d/a" = some "d/b/c" ∧
    pathParent (parsePath "d/b/c") ≠ pathParent (parsePath "d/a") := by
  decide

/-! ## Lemmas about recompute -/

theorem regexMistakes_nil_of_compiles {E : RegexEngine} {r : String}
    (h : regexCompiles E r = true) : regexMistakes E r = [] := by
  unfold regexCompiles at h
  by_cases hr : r = ""
  · rw [if_pos hr] at h
    exact absurd h (by simp)
  · rw [if_neg hr] at h
    unfold regexMistakes
    rw [if_neg]
    rintro ⟨-, hf⟩
    rw [h] at hf
    exact absurd hf (by simp)

theorem recompute_pos {E : RegexEngine} {validPath fsExists : String → Bool}
    {inp : RecomputeInput} {old : Option (List String)}
    (h1 : regexCompiles E inp.regex = true) (h2 : inp.replacePattern ≠ "") :
    recompute E validPath fsExists inp old =
      recomputeSubBranch E validPath fsExists inp old
        (renameAll E inp.regex inp.replacePattern inp.renameTarget inp.pickedPaths) := by
  unfold recompute
  rw [if_pos ⟨h1, h2⟩]

theorem recompute_neg {E : RegexEngine} {validPath fsExists : String → Bool}
    {inp : RecomputeInput} {old : Option (List String)}
    (h : ¬(regexCompiles E inp.regex = true ∧ inp.replacePattern ≠ "")) :
    recompute E validPath fsExists inp old =
      { appState := computeAppState inp,
        renamedPaths := some inp.pickedPaths,
        mistakes := regexMistakes E inp.regex,
        isApplyEnabled := applyEnabled inp (some inp.pickedPaths)
          (regexMistakes E inp.regex) } := by
  unfold recompute
  rw [if_neg h]

theorem renameAll_some {E : RegexEngine} {regex replacePattern : String}
    {target : RenameTarget} :
    ∀ {paths rs : List String},
      renameAll E regex replacePattern target paths = some rs →
      rs.length = paths.length ∧
        ∀ i, rs.get? i = (paths.get? i).bind (rename E regex replacePattern target) := by
  intro paths
  induction paths with
  | nil =>
    intro rs h
    have hrs : rs = [] := by
      unfold renameAll at h
      exact (Option.some_inj.mp h).symm
    subst hrs
    exact ⟨rfl, fun i => by cases i <;> rfl⟩
  | cons p rest ih =>
    intro rs h
    unfold renameAll at h
    rcases h1 : rename E regex replacePattern target p with _ | r <;> rw [h1] at h
    · exact absurd h (by simp)
    · rcases h2 : renameAll E regex replacePattern target rest with _ | rs' <;>
        rw [h2] at h
      · exact absurd h (by simp)
      · have hrs : rs = r :: rs' := (Option.some_inj.mp h).symm
        subst hrs
        obtain ⟨hlen, hget⟩ := ih h2
        refine ⟨by simp [hlen], fun i => ?_⟩
        cases i with
        | zero => simp [h1]
        | succ j => simpa using hget j

theorem renameAll_none {E : RegexEngine} {regex replacePattern : String}
    {target : RenameTarget} :
    ∀ {paths : List String},
      (∃ p ∈ paths, rename E regex replacePattern target p = none) →
      renameAll E regex replacePattern target paths = none := by
  intro paths
  induction paths with
  | nil =>
    rintro ⟨p, hp, -⟩
    exact absurd hp (by simp)
  | cons q rest ih =>
    rintro ⟨p, hp, hnone⟩
    unfold renameAll
    rcases List.mem_cons.mp hp with h | h
    · subst h
      rw [hnone]
    · rcases h1 : rename E regex replacePattern target q with _ | r
      · rfl
      · rw [ih ⟨p, h, hnone⟩]

theorem recompute_isApplyEnabled (E : RegexEngine)
    (validPath fsExists : String → Bool) (inp : RecomputeInput)
    (old : Option (List String)) :
    (recompute E validPath fsExists inp old).isApplyEnabled =
      applyEnabled inp (recompute E validPath fsExists inp old).renamedPaths
        (recompute E validPath fsExists inp old).mistakes := by
  by_cases h : regexCompiles E inp.regex = true ∧ inp.replacePattern ≠ ""
  · rw [recompute_pos h.1 h.2]
    unfold recomputeSubBranch
    rcases renameAll E inp.regex inp.replacePattern inp.renameTarget inp.pickedPaths
      <;> rfl
  · rw [recompute_neg h]

theorem recompute_renamed_of_mistakes_nil {E : RegexEngine}
    {validPath fsExists : String → Bool} {inp : RecomputeInput}
    {old : Option (List String)}
    (h : (recompute E validPath fsExists inp old).mistakes = []) :
    ∃ l, (recompute E validPath fsExists inp old).renamedPaths = some l := by
  by_cases hc : regexCompiles E inp.regex = true ∧ inp.replacePattern ≠ ""
  · rcases hra : renameAll E inp.regex inp.replacePattern inp.renameTarget
      inp.pickedPaths with _ | rs
    · rw [recompute_pos hc.1 hc.2, hra] at h
      unfold recomputeSubBranch at h
      simp at h
    · rw [recompute_pos hc.1 hc.2, hra]
      exact ⟨rs, rfl⟩
  · rw [recompute_neg hc]
    exact ⟨inp.pickedPaths, rfl⟩

/-! ## Claims about the recompute branches -/

/-- C6: when the regex string is empty, recompute publishes renamed paths
equal to the picked paths and an empty mistakes list. -/
theorem c6_empty_regex_identity (E : RegexEngine)
    (validPath fsExists : String → Bool) (inp : RecomputeInput)
    (old : Option (List String)) (h : inp.regex = "") :
    (recompute E validPath fsExists inp old).renamedPaths = some inp.pickedPaths ∧
    (recompute E validPath fsExists inp old).mistakes = [] := by
  have hc : regexCompiles E inp.regex = false := by
    unfold regexCompiles
    rw [if_pos h]
  have hm : regexMistakes E inp.regex = [] := by
    unfold regexMistakes
    rw [if_neg (fun hx => hx.1 h)]
  rw [recompute_neg (fun hx => by rw [hc] at hx; exact absurd hx.1 (by simp))]
  exact ⟨rfl, hm⟩

/-- Witness for C6 at a concrete input. -/
theorem c6_empty_regex_identity_witness :
    (recompute litEngine (fun _ => true) (fun _ => false)
      { pickedPaths := ["a", "b"], regex := "", replacePattern := "x",
        renameTarget := RenameTarget.name } none).renamedPaths = some ["a", "b"] ∧
    (recompute litEngine (fun _ => true) (fun _ => false)
      { pickedPaths := ["a", "b"], regex := "", replacePattern := "x",
        renameTarget := RenameTarget.name } none).mistakes = [] :=
  c6_empty_regex_identity litEngine (fun _ => true) (fun _ => false)
    { pickedPaths := ["a", "b"], regex := "", replacePattern := "x",
      renameTarget := RenameTarget.name } none rfl

/-- C5: when the regex string is non-empty and fails to compile, recompute
produces exactly one InvalidRegex mistake, publishes the identity copy of
the picked paths, and never invokes the substitution: the whole output is
the same for every engine with the same compilation behaviour, whatever
its substitution function does. -/
theorem c5_invalid_regex (E : RegexEngine) (validPath fsExists : String → Bool)
    (inp : RecomputeInput) (old : Option (List String))
    (h1 : inp.regex ≠ "") (h2 : E.compiles inp.regex = false) :
    (recompute E validPath fsExists inp old).mistakes = [Mistake.invalidRegex] ∧
    (recompute E validPath fsExists inp old).renamedPaths = some inp.pickedPaths ∧
    ∀ E' : RegexEngine, E'.compiles = E.compiles →
      recompute E' validPath fsExists inp old =
        recompute E validPath fsExists inp old := by
  have hc : regexCompiles E inp.regex = false := by
    unfold regexCompiles
    rw [if_neg h1]
    exact h2
  have hm : regexMistakes E inp.regex = [Mistake.invalidRegex] := by
    unfold regexMistakes
    rw [if_pos ⟨h1, h2⟩]
  have hneg : ¬(regexCompiles E inp.regex = true ∧ inp.replacePattern ≠ "") := by
    rw [hc]
    rintro ⟨hx, -⟩
    exact absurd hx (by simp)
  refine ⟨by rw [recompute_neg hneg, hm], by rw [recompute_neg hneg], ?_⟩
  intro E' hE
  have hc' : regexCompiles E' inp.regex = regexCompiles E inp.regex := by
    unfold regexCompiles
    rw [hE]
  have hm' : regexMistakes E' inp.regex = regexMistakes E inp.regex := by
    unfold regexMistakes
    rw [hE]
  rw [recompute_neg (by rw [hc']; exact hneg), recompute_neg hneg, hm']

/-- Witness for C5 at a concrete input: the pattern "(" does not compile
(for the literal engine exactly as for Python re). -/
theorem c5_invalid_regex_witness :
    (recompute litEngine (fun _ => true) (fun _ => false)
      { pickedPaths := ["a"], regex := "(", replacePattern := "b",
        renameTarget := RenameTarget.full } none).mistakes = [Mistake.invalidRegex] ∧
    (recompute litEngine (fun _ => true) (fun _ => false)
      { pickedPaths := ["a"], regex := "(", replacePattern := "b",
        renameTarget := RenameTarget.full } none).renamedPaths = some ["a"] :=
  ⟨(c5_invalid_regex litEngine (fun _ => true) (fun _ => false)
      { pickedPaths := ["a"], regex := "(", replacePattern := "b",
        renameTarget := RenameTarget.full } none (by decide) (by decide)).1,
   (c5_invalid_regex litEngine (fun _ => true) (fun _ => false)
      { pickedPaths := ["a"], regex := "(", replacePattern := "b",
        renameTarget := RenameTarget.full } none (by decide) (by decide)).2.1⟩

/-- C10: with a non-empty regex that compiles and an empty replacement,
recompute publishes the identity copy of the picked paths, no mistakes,
and a false apply-enabled flag. -/
theorem c10_empty_replacement_identity (E : RegexEngine)
    (validPath fsExists : String → Bool) (inp : RecomputeInput)
    (old : Option (List String))
    (h1 : inp.regex ≠ "") (h2 : E.compiles inp.regex = true)
    (h3 : inp.replacePattern = "") :
    (recompute E validPath fsExists inp old).renamedPaths = some inp.pickedPaths ∧
    (recompute E validPath fsExists inp old).mistakes = [] ∧
    (recompute E validPath fsExists inp old).isApplyEnabled = false := by
  have hc : regexCompiles E inp.regex = true := by
    unfold regexCompiles
    rw [if_neg h1]
    exact h2
  have hneg : ¬(regexCompiles E inp.regex = true ∧ inp.replacePattern ≠ "") := by
    rintro ⟨-, hx⟩
    exact hx h3
  rw [recompute_neg hneg]
  refine ⟨rfl, regexMistakes_nil_of_compiles hc, ?_⟩
  show applyEnabled inp (some inp.pickedPaths) (regexMistakes E inp.regex) = false
  unfold applyEnabled
  simp [h3]

/-- Witness for C10 at a concrete input. -/
theorem c10_empty_replacement_identity_witness :
    (recompute litEngine (fun _ => true) (fun _ => false)
      { pickedPaths := ["a"], regex := "a", replacePattern := "",
        renameTarget := RenameTarget.full } none).renamedPaths = some ["a"] ∧
    (recompute litEngine (fun _ => true) (fun _ => false)
      { pickedPaths := ["a"], regex := "a", replacePattern := "",
        renameTarget := RenameTarget.full } none).mistakes = [] ∧
    (recompute litEngine (fun _ => true) (fun _ => false)
      { pickedPaths := ["a"], regex := "a", replacePattern := "",
        renameTarget := RenameTarget.full } none).isApplyEnabled = false :=
  c10_empty_replacement_identity litEngine (fun _ => true) (fun _ => false)
    { pickedPaths := ["a"], regex := "a", replacePattern := "",
      renameTarget := RenameTarget.full } none (by decide) (by decide) rfl

/-- C3: when the regex compiles, the replacement is non-empty, and the
substitution fails on some picked path, recompute produces exactly one
InvalidReplacePattern mistake, and the renamed-paths property is left at
its previous value — in particular it stays undefined when nothing was
published before, and no partial output is ever published. -/
theorem c3_invalid_replace_pattern (E : RegexEngine)
    (validPath fsExists : String → Bool) (inp : RecomputeInput)
    (old : Option (List String))
    (h1 : regexCompiles E inp.regex = true) (h2 : inp.replacePattern ≠ "")
    (h3 : ∃ p ∈ inp.pickedPaths,
      rename E inp.regex inp.replacePattern inp.renameTarget p = none) :
    (recompute E validPath fsExists inp old).mistakes =
      [Mistake.invalidReplacePattern] ∧
    (recompute E validPath fsExists inp old).renamedPaths = old := by
  rw [recompute_pos h1 h2, renameAll_none h3]
  unfold recomputeSubBranch
  rw [regexMistakes_nil_of_compiles h1]
  exact ⟨rfl, rfl⟩

/-- Witness for C3 at a concrete input: the replacement backreference to a
group the pattern does not have makes re.sub raise. -/
theorem c3_invalid_replace_pattern_witness :
    (recompute litEngine (fun _ => true) (fun _ => false)
      { pickedPaths := ["a"], regex := "a", replacePattern := "\\9",
        renameTarget := RenameTarget.full } none).mistakes =
      [Mistake.invalidReplacePattern] ∧
    (recompute litEngine (fun _ => true) (fun _ => false)
      { pickedPaths := ["a"], regex := "a", replacePattern := "\\9",
        renameTarget := RenameTarget.full } none).renamedPaths = none :=
  c3_invalid_replace_pattern litEngine (fun _ => true) (fun _ => false)
    { pickedPaths := ["a"], regex := "a", replacePattern := "\\9",
      renameTarget := RenameTarget.full } none (by decide) (by decide)
    ⟨"a", by decide, by decide⟩

/-- C2 (amended): after every recompute that does not produce an
InvalidReplacePattern mistake — equivalently, whenever a renamed list is
actually published — the published renamed list has the same length as the
picked list, and its entry i is obtained from entry i of the picked list
alone through the per-path function determined by the regex, the
replacement and the target. -/
theorem c2_renamed_pointwise (E : RegexEngine)
    (validPath fsExists : String → Bool) (inp : RecomputeInput)
    (old : Option (List String))
    (h : Mistake.invalidReplacePattern ∉ (recompute E validPath fsExists inp old).mistakes) :
    ∃ l, (recompute E validPath fsExists inp old).renamedPaths = some l ∧
      l.length = inp.pickedPaths.length ∧
      ∀ i, l.get? i = (inp.pickedPaths.get? i).bind
        (renameOne E inp.regex inp.replacePattern inp.renameTarget) := by
  by_cases hc : regexCompiles E inp.regex = true ∧ inp.replacePattern ≠ ""
  · rcases hra : renameAll E inp.regex inp.replacePattern inp.renameTarget
      inp.pickedPaths with _ | rs
    · exfalso
      apply h
      rw [recompute_pos hc.1 hc.2, hra]
      unfold recomputeSubBranch
      simp
    · rw [recompute_pos hc.1 hc.2, hra]
      obtain ⟨hlen, hget⟩ := renameAll_some hra
      refine ⟨rs, rfl, hlen, fun i => ?_⟩
      rw [hget i]
      rcases inp.pickedPaths.get? i with _ | p
      · rfl
      · show rename E inp.regex inp.replacePattern inp.renameTarget p =
          renameOne E inp.regex inp.replacePattern inp.renameTarget p
        unfold renameOne
        rw [if_pos hc]
  · rw [recompute_neg hc]
    refine ⟨inp.pickedPaths, rfl, rfl, fun i => ?_⟩
    rcases inp.pickedPaths.get? i with _ | p
    · rfl
    · show some p = renameOne E inp.regex inp.replacePattern inp.renameTarget p
      unfold renameOne
      rw [if_neg hc]

/-- C2 (counterexample to the claim as stated): a recompute whose
substitution fails leaves the previously published renamed list in place,
so after such a recompute the renamed list can have a different length
than the picked list.  Here a first recompute publishes the two-entry
identity list, then the picked list shrinks to one entry and the
replacement becomes the invalid backreference, so the second recompute
keeps the stale two-entry list while the picked list has one entry. -/
theorem c2_renamed_pointwise_counterexample :
    (recompute litEngine (fun _ => true) (fun _ => false)
      { pickedPaths := ["a"], regex := "x", replacePattern := "\\9",
        renameTarget := RenameTarget.name }
      (recompute litEngine (fun _ => true) (fun _ => false)
        { pickedPaths := ["a", "b"], regex := "x", replacePattern := "",
          renameTarget := RenameTarget.name } none).renamedPaths).renamedPaths =
      some ["a", "b"] ∧
    (["a", "b"] : List String).length ≠ (["a"] : List String).length := by
  decide

/-- Witness for C2 (amended) at a concrete input. -/
theorem c2_renamed_pointwise_witness :
    Mistake.invalidReplacePattern ∉ (recompute litEngine (fun _ => true) (fun _ => false)
      { pickedPaths := ["a", "b"], regex := "a", replacePattern := "c",
        renameTarget := RenameTarget.full } none).mistakes ∧
    ∃ l, (recompute litEngine (fun _ => true) (fun _ => false)
      { pickedPaths := ["a", "b"], regex := "a", replacePattern := "c",
        renameTarget := RenameTarget.full } none).renamedPaths = some l ∧
      l.length = (["a", "b"] : List String).length ∧
      ∀ i, l.get? i = ((["a", "b"] : List String).get? i).bind
        (renameOne litEngine "a" "c" RenameTarget.full) :=
  ⟨by decide,
   c2_renamed_pointwise litEngine (fun _ => true) (fun _ => false)
    { pickedPaths := ["a", "b"], regex := "a", replacePattern := "c",
      renameTarget := RenameTarget.full } none (by decide)⟩

/-- C1: the apply-enabled flag recompute publishes is true exactly when
the regex and the replacement are non-empty, the picked list is non-empty,
the published renamed list differs from the picked list in at least one
entry, and the mistakes list is empty. -/
theorem c1_apply_enabled_iff (E : RegexEngine)
    (validPath fsExists : String → Bool) (inp : RecomputeInput)
    (old : Option (List String)) :
    (recompute E validPath fsExists inp old).isApplyEnabled = true ↔
      (inp.regex ≠ "" ∧ inp.replacePattern ≠ "" ∧ inp.pickedPaths ≠ [] ∧
        (∃ l, (recompute E validPath fsExists inp old).renamedPaths = some l ∧
          ∃ i, l.get? i ≠ inp.pickedPaths.get? i) ∧
        (recompute E validPath fsExists inp old).mistakes = []) := by
  rw [recompute_isApplyEnabled]
  unfold applyEnabled
  rw [decide_eq_true_iff]
  constructor
  · rintro ⟨h1, h2, h3, h4, h5⟩
    obtain ⟨l, hl⟩ := recompute_renamed_of_mistakes_nil h5
    refine ⟨h1, h2, h3, ⟨l, hl, ?_⟩, h5⟩
    have hne : l ≠ inp.pickedPaths := by
      intro he
      exact h4 (by rw [hl, he])
    by_contra hcon
    push_neg at hcon
    exact hne (List.ext_get?_iff.mpr hcon)
  · rintro ⟨h1, h2, h3, ⟨l, hl, i, hi⟩, h5⟩
    refine ⟨h1, h2, h3, ?_, h5⟩
    rw [hl]
    intro he
    apply hi
    rw [Option.some_inj.mp he]

/-- Witness for C9 (amended) at a concrete input: pattern "a", replacement
"b", picked path "d/a". -/
theorem c9_name_target_keeps_parent_witness :
    renameUsingName litEngine "a" "b" "d/a" =
      some (pathStr (pathJoinPath (pathParent (parsePath "d/a"))
        { root := "", parts := ["b"] })) ∧
    pathParent (parsePath (pathStr (pathJoinPath (pathParent (parsePath "d/a"))
        { root := "", parts := ["b"] }))) = pathParent (parsePath "d/a") :=
  c9_name_target_keeps_parent litEngine "a" "b" "d/a" "b" (by decide) (by decide)

/-! ## Lemmas about conflict detection -/

theorem zip_get?_eq_some {α β : Type} :
    ∀ (l₁ : List α) (l₂ : List β) (k : Nat) (a : α) (b : β),
    ((l₁.zip l₂).get? k = some (a, b) ↔ l₁.get? k = some a ∧ l₂.get? k = some b) := by
  intro l₁
  induction l₁ with
  | nil =>
    intro l₂ k a b
    simp
  | cons x t ih =>
    intro l₂ k a b
    cases l₂ with
    | nil => simp
    | cons y t₂ =>
      cases k with
      | zero =>
        show (some (x, y) = some (a, b)) ↔ _
        constructor
        · intro h
          have h' := Option.some_inj.mp h
          have h1 : x = a := congrArg Prod.fst h'
          have h2 : y = b := congrArg Prod.snd h'
          subst h1
          subst h2
          exact ⟨rfl, rfl⟩
        · rintro ⟨h1, h2⟩
          rw [Option.some_inj.mp h1, Option.some_inj.mp h2]
      | succ k' => exact ih t₂ k' a b

theorem mem_dupMistakes {bf : Option (Nat × Nat)} {i : Nat} {m : Mistake}
    (h : m ∈ dupMistakes bf i) : ∃ x, m = Mistake.duplicate x := by
  rcases bf with _ | ⟨f, c⟩
  · exact absurd h (by simp [dupMistakes])
  · unfold dupMistakes at h
    rcases List.mem_append.mp h with h | h
    · split at h
      · exact ⟨f, List.mem_singleton.mp h⟩
      · simp at h
    · exact ⟨i, List.mem_singleton.mp h⟩

theorem alreadyExists_mem_detectAux (validPath fsExists : String → Bool) :
    ∀ (rest : List (String × String)) (i₀ : Nat) (B : List (String × Nat × Nat))
      (j : Nat),
    (Mistake.alreadyExists j ∈ detectAux validPath fsExists rest i₀ B ↔
      ∃ k pr, rest.get? k = some pr ∧ j = i₀ + k ∧ pr.2 ≠ pr.1 ∧
        fsExists pr.2 = true) := by
  intro rest
  induction rest with
  | nil =>
    intro i₀ B j
    constructor
    · intro h
      rw [show detectAux validPath fsExists [] i₀ B = [] from rfl] at h
      exact absurd h (by simp)
    · rintro ⟨k, pr, hk, -⟩
      cases k <;> exact Option.noConfusion hk
  | cons hd tl ih =>
    intro i₀ B j
    obtain ⟨p, r⟩ := hd
    unfold detectAux
    simp only [List.mem_append]
    constructor
    · rintro (((hdup | hdest) | hex) | hrec)
      · obtain ⟨x, hx⟩ := mem_dupMistakes hdup
        exact absurd hx (by simp)
      · split at hdest
        · simp at hdest
        · exact absurd (List.mem_singleton.mp hdest) (by simp)
      · split at hex
        · next hcond =>
          have hji : Mistake.alreadyExists j = Mistake.alreadyExists i₀ :=
            List.mem_singleton.mp hex
          have hj : j = i₀ := by injection hji
          exact ⟨0, (p, r), rfl, by omega, hcond.1, hcond.2⟩
        · simp at hex
      · obtain ⟨k, pr, hk, hj, hne, hfs⟩ := (ih (i₀ + 1) _ j).mp hrec
        exact ⟨k + 1, pr, hk, by omega, hne, hfs⟩
    · rintro ⟨k, pr, hk, hj, hne, hfs⟩
      cases k with
      | zero =>
        have hpr : pr = (p, r) := Option.some_inj.mp hk.symm
        subst hpr
        refine Or.inl (Or.inr ?_)
        rw [if_pos ⟨hne, hfs⟩]
        have hj0 : j = i₀ := by omega
        rw [hj0]
        exact List.mem_singleton.mpr rfl
      | succ k' =>
        refine Or.inr ?_
        exact (ih (i₀ + 1) _ j).mpr ⟨k', pr, hk, by omega, hne, hfs⟩

/-- C8: conflict detection emits Exists(i) exactly when the renamed path
at index i differs from the picked path at index i and a filesystem entry
already exists at the renamed path; in particular no Exists mistake is
emitted when the renamed path equals the picked path, even if that path
exists. -/
theorem c8_exists_mistake_iff (validPath fsExists : String → Bool)
    (renamedPaths pickedPaths : List String) (i : Nat) :
    Mistake.alreadyExists i ∈
        detectRenamedPathsMistakes validPath fsExists renamedPaths pickedPaths ↔
      ∃ pi ri, pickedPaths.get? i = some pi ∧ renamedPaths.get? i = some ri ∧
        ri ≠ pi ∧ fsExists ri = true := by
  unfold detectRenamedPathsMistakes
  rw [alreadyExists_mem_detectAux]
  constructor
  · rintro ⟨k, pr, hk, hj, hne, hfs⟩
    have hki : k = i := by omega
    subst hki
    obtain ⟨h1, h2⟩ := (zip_get?_eq_some pickedPaths renamedPaths k pr.1 pr.2).mp
      (by rw [hk])
    exact ⟨pr.1, pr.2, h1, h2, hne, hfs⟩
  · rintro ⟨pi, ri, h1, h2, h3, h4⟩
    exact ⟨i, (pi, ri),
      (zip_get?_eq_some pickedPaths renamedPaths i pi ri).mpr ⟨h1, h2⟩,
      by omega, h3, h4⟩

theorem bucketFind_bucketAdd (u v : String) (i : Nat) :
    ∀ B : List (String × Nat × Nat),
    bucketFind u (bucketAdd v i B) =
      if u = v then
        match bucketFind u B with
        | some fc => some (fc.1, fc.2 + 1)
        | none => some (i, 1)
      else bucketFind u B := by
  intro B
  induction B with
  | nil =>
    by_cases h : u = v
    · subst h
      simp [bucketAdd, bucketFind]
    · simp [bucketAdd, bucketFind, h, Ne.symm h]
  | cons e rest ih =>
    obtain ⟨w, f, c⟩ := e
    by_cases hwv : w = v
    · subst hwv
      by_cases huw : u = w
      · subst huw
        simp [bucketAdd, bucketFind]
      · simp [bucketAdd, bucketFind, huw, Ne.symm huw]
    · by_cases huw : u = w
      · subst huw
        have huv : u ≠ v := fun h => hwv h
        simp [bucketAdd, bucketFind, hwv, huv]
      · simp [bucketAdd, bucketFind, hwv, Ne.symm huw, ih]

theorem bucketsFold_append (r : String) :
    ∀ (pre : List String) (i : Nat) (B : List (String × Nat × Nat)),
    bucketsFold (pre ++ [r]) i B =
      bucketAdd r (i + pre.length) (bucketsFold pre i B) := by
  intro pre
  induction pre with
  | nil =>
    intro i B
    show bucketAdd r i B = bucketAdd r (i + 0) B
    rw [Nat.add_zero]
  | cons v rest ih =>
    intro i B
    show bucketsFold (rest ++ [r]) (i + 1) (bucketAdd v i B) = _
    rw [ih]
    show bucketAdd r (i + 1 + rest.length) _ =
      bucketAdd r (i + (rest.length + 1)) _
    congr 1
    omega

theorem bucketFind_bucketsFold (u : String) :
    ∀ (pre : List String) (i : Nat) (B : List (String × Nat × Nat)),
    bucketFind u (bucketsFold pre i B) = bucketSpec u pre i (bucketFind u B) := by
  intro pre
  induction pre with
  | nil =>
    intro i B
    show bucketFind u B = _
    rcases h : bucketFind u B with _ | fc
    · simp [bucketSpec]
    · simp [bucketSpec]
  | cons v rest ih =>
    intro i B
    show bucketFind u (bucketsFold rest (i + 1) (bucketAdd v i B)) = _
    rw [ih, bucketFind_bucketAdd]
    by_cases huv : u = v
    · subst huv
      rw [if_pos rfl]
      rcases h : bucketFind u B with _ | fc
      · show bucketSpec u rest (i + 1) (some (i, 1)) = bucketSpec u (u :: rest) i none
        simp only [bucketSpec]
        rw [if_pos (List.mem_cons_self u rest)]
        rw [List.indexOf_cons_self, List.count_cons_self]
        simp
        omega
      · show bucketSpec u rest (i + 1) (some (fc.1, fc.2 + 1)) =
          bucketSpec u (u :: rest) i (some fc)
        simp only [bucketSpec]
        rw [List.count_cons_self]
        simp
        omega
    · rw [if_neg huv]
      rcases h : bucketFind u B with _ | fc
      · show bucketSpec u rest (i + 1) none = bucketSpec u (v :: rest) i none
        simp only [bucketSpec]
        have hcnt : (v :: rest).count u = rest.count u := by
          rw [List.count_cons]
          simp [Ne.symm huv]
        by_cases hmem : u ∈ rest
        · rw [if_pos hmem, if_pos (List.mem_cons_of_mem v hmem)]
          rw [List.indexOf_cons_ne rest (Ne.symm huv), hcnt]
          congr 1
          congr 1
          omega
        · rw [if_neg hmem, if_neg (by simp [huv, hmem])]
      · show bucketSpec u rest (i + 1) (some fc) = bucketSpec u (v :: rest) i (some fc)
        simp only [bucketSpec]
        rw [List.count_cons]
        simp [Ne.symm huv]

theorem indexOf_eq_of_count_one {l : List String} {j : Nat} {u : String}
    (hget : l.get? j = some u) (hcount : l.count u = 1) : l.indexOf u = j := by
  induction l generalizing j with
  | nil => cases j <;> exact Option.noConfusion hget
  | cons a t ih =>
    by_cases hau : a = u
    · subst hau
      have hc : (a :: t).count a = t.count a + 1 := List.count_cons_self a t
      have ht : t.count a = 0 := by omega
      have hnot : a ∉ t := by
        intro hmem
        have := List.count_pos_iff.mpr hmem
        omega
      cases j with
      | zero => exact List.indexOf_cons_self a t
      | succ k =>
        exfalso
        exact hnot (List.get?_mem hget)
    · cases j with
      | zero => exact absurd (Option.some_inj.mp hget) hau
      | succ k =>
        have hget' : t.get? k = some u := hget
        have hcount' : t.count u = 1 := by
          rw [List.count_cons] at hcount
          simpa [hau] using hcount
        rw [List.indexOf_cons_ne t hau, ih hget' hcount']

theorem count_dup_singleton (j x : Nat) :
    List.count (Mistake.duplicate j) [Mistake.duplicate x] =
      if j = x then 1 else 0 := by
  by_cases h : j = x
  · subst h
    simp
  · rw [List.count_singleton', if_neg (fun hb => h (Mistake.duplicate.inj hb).symm),
      if_neg h]

theorem count_dup_single_ne (j : Nat) (m : Mistake)
    (hm : ∀ x, m ≠ Mistake.duplicate x) :
    List.count (Mistake.duplicate j) [m] = 0 := by
  rw [List.count_singleton', if_neg (hm j)]

theorem count_singleton_string (u r : String) :
    List.count u [r] = if r = u then 1 else 0 :=
  List.count_singleton' u r

theorem count_dup_dupMistakes (j i : Nat) (f c : Nat) :
    List.count (Mistake.duplicate j) (dupMistakes (some (f, c)) i) =
      (if c = 1 ∧ j = f then 1 else 0) + (if j = i then 1 else 0) := by
  show List.count _
    ((if c = 1 then [Mistake.duplicate f] else []) ++ [Mistake.duplicate i]) = _
  rw [List.count_append, count_dup_singleton]
  congr 1
  by_cases hc : c = 1
  · rw [if_pos hc, count_dup_singleton]
    by_cases hj : j = f
    · rw [if_pos hj, if_pos ⟨hc, hj⟩]
    · rw [if_neg hj, if_neg (fun hx => hj hx.2)]
  · rw [if_neg hc, if_neg (fun hx => hc hx.1)]
    rfl

theorem count_dup_emit (pre : List String) (r : String) (j : Nat) :
    List.count (Mistake.duplicate j)
        (dupMistakes (bucketFind r (bucketsFold pre 0 [])) pre.length) =
      dupEmit pre r j := by
  rw [bucketFind_bucketsFold]
  show List.count _ (dupMistakes
    (if r ∈ pre then some (0 + pre.indexOf r, pre.count r) else none)
    pre.length) = _
  unfold dupEmit
  by_cases hmem : r ∈ pre
  · rw [if_pos hmem, if_pos hmem, count_dup_dupMistakes, Nat.zero_add]
  · rw [if_neg hmem, if_neg hmem]
    rfl

theorem dupCountSpec_cons (pre : List String) (r : String) (S : List String)
    (j : Nat) :
    dupCountSpec pre (r :: S) j = dupEmit pre r j + dupCountSpec (pre ++ [r]) S j := by
  have hcount_app : ∀ u, (pre ++ [r]).count u = pre.count u + List.count u [r] :=
    fun u => List.count_append u pre [r]
  rcases Nat.lt_trichotomy j pre.length with hj | hj | hj
  · -- the index lies in the processed prefix
    obtain ⟨u, hu⟩ : ∃ u, pre.get? j = some u := by
      cases h : pre.get? j with
      | none =>
        rw [List.get?_eq_none] at h
        omega
      | some u => exact ⟨u, rfl⟩
    have hu' : (pre ++ [r]).get? j = some u := by
      rw [List.get?_append hj]
      exact hu
    unfold dupCountSpec
    rw [hu, hu']
    simp only [Option.elim_some]
    have hjlen : j ≠ pre.length := by omega
    by_cases hur : u = r
    · subst hur
      have hmem : u ∈ pre := List.get?_mem hu
      have hpos : 0 < pre.count u := List.count_pos_iff.mpr hmem
      have happ1 : (pre ++ [u]).count u = pre.count u + 1 := by
        rw [hcount_app, count_singleton_string, if_pos rfl]
      have htail : ¬((pre ++ [u]).count u = 1 ∧ u ∈ S) := by
        rintro ⟨hc, -⟩
        omega
      rw [if_neg htail]
      unfold dupEmit
      rw [if_pos hmem, if_neg hjlen]
      by_cases hc : pre.count u = 1
      · have hidx : pre.indexOf u = j := indexOf_eq_of_count_one hu hc
        rw [if_pos ⟨hc, List.mem_cons_self u S⟩, if_pos ⟨hc, hidx.symm⟩]
      · rw [if_neg (fun hx => hc hx.1), if_neg (fun hx => hc hx.1)]
    · have hmemiff : (u ∈ r :: S) ↔ u ∈ S := by
        simp [List.mem_cons, hur]
      have hcnt : (pre ++ [r]).count u = pre.count u := by
        rw [hcount_app, count_singleton_string, if_neg (fun h => hur h.symm)]
        omega
      have hemit : dupEmit pre r j = 0 := by
        unfold dupEmit
        by_cases hmem : r ∈ pre
        · rw [if_pos hmem, if_neg hjlen, if_neg]
          · rintro ⟨-, hidx⟩
            rw [hidx] at hu
            rw [List.indexOf_get? hmem] at hu
            exact hur (Option.some_inj.mp hu).symm
        · rw [if_neg hmem]
      rw [hemit, hcnt, Nat.zero_add]
      by_cases hcond : pre.count u = 1 ∧ u ∈ S
      · rw [if_pos ⟨hcond.1, hmemiff.mpr hcond.2⟩, if_pos hcond]
      · rw [if_neg (fun hx => hcond ⟨hx.1, hmemiff.mp hx.2⟩), if_neg hcond]
  · -- the index is exactly the current one
    have hpre : pre.get? j = none := by
      rw [List.get?_eq_none]
      omega
    have hconc : (pre ++ [r]).get? j = some r := by
      rw [hj]
      exact List.get?_concat_length pre r
    unfold dupCountSpec
    rw [hpre, hconc]
    simp only [Option.elim_none, Option.elim_some]
    have hzero : j - pre.length = 0 := by omega
    rw [hzero]
    show (if 2 ≤ (pre ++ r :: S).count r then 1 else 0) = _
    have hsplit : (pre ++ r :: S).count r = pre.count r + (1 + S.count r) := by
      rw [List.count_append, List.count_cons_self]
      omega
    have happ1 : (pre ++ [r]).count r = pre.count r + 1 := by
      rw [hcount_app, count_singleton_string, if_pos rfl]
    unfold dupEmit
    by_cases hmem : r ∈ pre
    · have hpos : 0 < pre.count r := List.count_pos_iff.mpr hmem
      have hidx : pre.indexOf r < pre.length := List.indexOf_lt_length.mpr hmem
      rw [if_pos hmem, if_pos hj, if_neg (show ¬(pre.count r = 1 ∧
        j = pre.indexOf r) from by rintro ⟨-, h⟩; omega)]
      rw [if_neg (show ¬((pre ++ [r]).count r = 1 ∧ r ∈ S) from by
        rintro ⟨hc, -⟩; omega)]
      rw [if_pos (show 2 ≤ (pre ++ r :: S).count r from by omega)]
    · have hzc : pre.count r = 0 := by
        rw [List.count_eq_zero]
        exact hmem
      rw [if_neg hmem, Nat.zero_add]
      by_cases hS : r ∈ S
      · have hposS : 0 < S.count r := List.count_pos_iff.mpr hS
        rw [if_pos (show 2 ≤ (pre ++ r :: S).count r from by omega)]
        rw [if_pos (show (pre ++ [r]).count r = 1 ∧ r ∈ S from ⟨by omega, hS⟩)]
      · have hzS : S.count r = 0 := by
          rw [List.count_eq_zero]
          exact hS
        rw [if_neg (show ¬(2 ≤ (pre ++ r :: S).count r) from by omega)]
        rw [if_neg (show ¬((pre ++ [r]).count r = 1 ∧ r ∈ S) from by
          rintro ⟨-, h⟩; exact hS h)]
  · -- the index lies strictly beyond the current one
    have hpre : pre.get? j = none := by
      rw [List.get?_eq_none]
      omega
    have hconc : (pre ++ [r]).get? j = none := by
      rw [List.get?_eq_none]
      simp only [List.length_append, List.length_singleton]
      omega
    unfold dupCountSpec
    rw [hpre, hconc]
    simp only [Option.elim_none]
    have hemit : dupEmit pre r j = 0 := by
      unfold dupEmit
      by_cases hmem : r ∈ pre
      · have hidx : pre.indexOf r < pre.length := List.indexOf_lt_length.mpr hmem
        rw [if_pos hmem, if_neg (by omega), if_neg (by rintro ⟨-, h⟩; omega)]
      · rw [if_neg hmem]
    rw [hemit, Nat.zero_add]
    have hk : j - pre.length = (j - (pre ++ [r]).length) + 1 := by
      simp only [List.length_append, List.length_singleton]
      omega
    rw [hk]
    show (S.get? (j - (pre ++ [r]).length)).elim 0
        (fun u => if 2 ≤ (pre ++ r :: S).count u then 1 else 0) = _
    have hassoc : pre ++ r :: S = (pre ++ [r]) ++ S := by
      rw [List.append_assoc]
      rfl
    rw [hassoc]

theorem dup_count_detectAux (validPath fsExists : String → Bool) :
    ∀ (rest : List (String × String)) (pre : List String) (j : Nat),
    List.count (Mistake.duplicate j)
        (detectAux validPath fsExists rest pre.length (bucketsFold pre 0 [])) =
      dupCountSpec pre (rest.map Prod.snd) j := by
  intro rest
  induction rest with
  | nil =>
    intro pre j
    rw [show detectAux validPath fsExists [] pre.length (bucketsFold pre 0 []) = []
      from rfl, List.count_nil]
    unfold dupCountSpec
    cases h : pre.get? j with
    | none => rfl
    | some u =>
      simp only [Option.elim_some, List.map_nil]
      rw [if_neg (fun hx => List.not_mem_nil u hx.2)]
  | cons hd tl ih =>
    intro pre j
    obtain ⟨p, r⟩ := hd
    unfold detectAux
    rw [List.count_append, List.count_append, List.count_append]
    have hdest : List.count (Mistake.duplicate j)
        (if validPath r = true then []
         else [Mistake.invalidDestination pre.length]) = 0 := by
      split
      · rfl
      · exact count_dup_single_ne j _ (fun x h => Mistake.noConfusion h)
    have hex : List.count (Mistake.duplicate j)
        (if r ≠ p ∧ fsExists r = true then [Mistake.alreadyExists pre.length]
         else []) = 0 := by
      split
      · exact count_dup_single_ne j _ (fun x h => Mistake.noConfusion h)
      · rfl
    rw [hdest, hex, count_dup_emit]
    have hrec : detectAux validPath fsExists tl (pre.length + 1)
        (bucketAdd r pre.length (bucketsFold pre 0 [])) =
        detectAux validPath fsExists tl ((pre ++ [r]).length)
          (bucketsFold (pre ++ [r]) 0 []) := by
      rw [bucketsFold_append, Nat.zero_add]
      congr 1
      simp
    rw [hrec, ih (pre ++ [r]) j]
    show dupEmit pre r j + 0 + 0 + dupCountSpec (pre ++ [r]) (tl.map Prod.snd) j = _
    simp only [List.map_cons]
    rw [dupCountSpec_cons]
    omega

theorem zip_map_snd_eq :
    ∀ {l₁ l₂ : List String}, l₁.length = l₂.length →
      (l₁.zip l₂).map Prod.snd = l₂ := by
  intro l₁
  induction l₁ with
  | nil =>
    intro l₂ hlen
    cases l₂ with
    | nil => rfl
    | cons y t => exact absurd hlen (by simp)
  | cons x t ihz =>
    intro l₂ hlen
    cases l₂ with
    | nil => exact absurd hlen (by simp)
    | cons y t₂ =>
      show y :: (t.zip t₂).map Prod.snd = y :: t₂
      rw [ihz (by simpa using hlen)]

theorem detect_dup_count (validPath fsExists : String → Bool)
    (renamedPaths pickedPaths : List String)
    (hlen : pickedPaths.length = renamedPaths.length)
    (j : Nat) (u : String) (hj : renamedPaths.get? j = some u) :
    List.count (Mistake.duplicate j)
        (detectRenamedPathsMistakes validPath fsExists renamedPaths pickedPaths) =
      if 2 ≤ renamedPaths.count u then 1 else 0 := by
  have hsnd : (pickedPaths.zip renamedPaths).map Prod.snd = renamedPaths :=
    zip_map_snd_eq hlen
  have h0 := dup_count_detectAux validPath fsExists
    (pickedPaths.zip renamedPaths) [] j
  rw [hsnd] at h0
  unfold detectRenamedPathsMistakes
  rw [show detectAux validPath fsExists (pickedPaths.zip renamedPaths) 0 [] =
    detectAux validPath fsExists (pickedPaths.zip renamedPaths)
      ([] : List String).length (bucketsFold [] 0 []) from rfl, h0]
  show (renamedPaths.get? j).elim 0
    (fun v => if 2 ≤ List.count v renamedPaths then 1 else 0) = _
  rw [hj]
  simp only [Option.elim_some]

/-- C7: in conflict detection, Duplicate(j) is reported exactly once when
the renamed value at index j occurs at some other index as well (the
original index is reported at the moment of the first repeat, each repeat
at its own turn), and never otherwise. -/
theorem c7_duplicate_count (validPath fsExists : String → Bool)
    (renamedPaths pickedPaths : List String)
    (hlen : pickedPaths.length = renamedPaths.length)
    (j : Nat) (u : String) (hj : renamedPaths.get? j = some u) :
    List.count (Mistake.duplicate j)
        (detectRenamedPathsMistakes validPath fsExists renamedPaths pickedPaths) =
      if 2 ≤ renamedPaths.count u then 1 else 0 :=
  detect_dup_count validPath fsExists renamedPaths pickedPaths hlen j u hj

/-- Witness for C7 at a concrete input: two distinct picked paths mapping
to the same renamed value both receive exactly one Duplicate mistake, and
a non-repeated value receives none. -/
theorem c7_duplicate_count_witness :
    List.count (Mistake.duplicate 0)
        (detectRenamedPathsMistakes (fun _ => true) (fun _ => false)
          ["x", "x", "y"] ["a", "b", "c"]) =
      (if 2 ≤ (["x", "x", "y"] : List String).count "x" then 1 else 0) ∧
    List.count (Mistake.duplicate 1)
        (detectRenamedPathsMistakes (fun _ => true) (fun _ => false)
          ["x", "x", "y"] ["a", "b", "c"]) =
      (if 2 ≤ (["x", "x", "y"] : List String).count "x" then 1 else 0) ∧
    List.count (Mistake.duplicate 2)
        (detectRenamedPathsMistakes (fun _ => true) (fun _ => false)
          ["x", "x", "y"] ["a", "b", "c"]) =
      (if 2 ≤ (["x", "x", "y"] : List String).count "y" then 1 else 0) :=
  ⟨c7_duplicate_count (fun _ => true) (fun _ => false) ["x", "x", "y"]
      ["a", "b", "c"] (by decide) 0 "x" (by decide),
   c7_duplicate_count (fun _ => true) (fun _ => false) ["x", "x", "y"]
      ["a", "b", "c"] (by decide) 1 "x" (by decide),
   c7_duplicate_count (fun _ => true) (fun _ => false) ["x", "x", "y"]
      ["a", "b", "c"] (by decide) 2 "y" (by decide)⟩

/-! ## Lemmas about apply and undo

MainModel.apply_renaming performs the renames picked→renamed sequentially
and undo_renaming performs renamed→picked sequentially in the same (not
reversed) order.  The round-trip claim C4 is settled for runs in which the
recompute that produced the renamed list found no mistakes and every
individual rename of both phases succeeds. -/

theorem fsRename_eq_some {src dst : String} {fs fs' : Finset String}
    (h : fsRename src dst fs = some fs') :
    src ∈ fs ∧ dst ∉ fs ∧ fs' = insert dst (fs.erase src) := by
  unfold fsRename at h
  split at h
  · next hc => exact ⟨hc.1, hc.2, (Option.some_inj.mp h).symm⟩
  · exact Option.noConfusion h

theorem applyList_append (L₁ L₂ : List (String × String)) :
    ∀ g : Finset String,
    applyList (L₁ ++ L₂) g = (applyList L₁ g).bind (fun c => applyList L₂ c) := by
  induction L₁ with
  | nil => intro g; rfl
  | cons hd t ih =>
    intro g
    obtain ⟨p, r⟩ := hd
    show (match fsRename p r g with
      | none => none
      | some c => applyList (t ++ L₂) c) =
      (match fsRename p r g with
       | none => none
       | some c => applyList t c).bind (fun c => applyList L₂ c)
    cases h : fsRename p r g with
    | none => rfl
    | some c => exact ih c

theorem applyList_cons_some {p r : String} {t : List (String × String)}
    {g g' : Finset String} (h : applyList ((p, r) :: t) g = some g') :
    ∃ c, fsRename p r g = some c ∧ applyList t c = some g' := by
  have h' : (match fsRename p r g with
      | none => none
      | some c => applyList t c) = some g' := h
  cases hc : fsRename p r g with
  | none => rw [hc] at h'; exact Option.noConfusion h'
  | some c => rw [hc] at h'; exact ⟨c, rfl, h'⟩

theorem undoList_eq_applyList_swap :
    ∀ (L : List (String × String)) (g : Finset String),
    undoList L g = applyList (L.map Prod.swap) g := by
  intro L
  induction L with
  | nil => intro g; rfl
  | cons hd t ih =>
    intro g
    obtain ⟨p, r⟩ := hd
    show (match fsRename r p g with
      | none => none
      | some c => undoList t c) =
      (match fsRename r p g with
       | none => none
       | some c => applyList (t.map Prod.swap) c)
    cases h : fsRename r p g with
    | none => rfl
    | some c => exact ih c

theorem applyList_fst_mem :
    ∀ {M : List (String × String)} {p r : String} {N : List (String × String)}
      {g g' : Finset String},
    applyList (M ++ (p, r) :: N) g = some g' → p ∈ g ∨ p ∈ M.map Prod.snd := by
  intro M
  induction M with
  | nil =>
    intro p r N g g' h
    obtain ⟨c, hc, -⟩ := applyList_cons_some h
    exact Or.inl (fsRename_eq_some hc).1
  | cons hd t ih =>
    intro p r N g g' h
    obtain ⟨q, s⟩ := hd
    obtain ⟨c, hc, hrest⟩ := applyList_cons_some h
    obtain ⟨-, -, hceq⟩ := fsRename_eq_some hc
    have hsmem : s ∈ List.map Prod.snd ((q, s) :: t) :=
      List.mem_map_of_mem Prod.snd (List.mem_cons_self (q, s) t)
    rcases ih hrest with hp | hp
    · rw [hceq] at hp
      rcases Finset.mem_insert.mp hp with hp | hp
      · right
        rw [hp]
        exact hsmem
      · exact Or.inl (Finset.mem_of_mem_erase hp)
    · rcases List.mem_map.mp hp with ⟨pr, hpr, hsnd⟩
      exact Or.inr (List.mem_map.mpr ⟨pr, List.mem_cons_of_mem (q, s) hpr, hsnd⟩)

theorem applyList_not_mem {x : String} :
    ∀ {N : List (String × String)} {g g' : Finset String},
    x ∉ g → x ∉ N.map Prod.snd → applyList N g = some g' → x ∉ g' := by
  intro N
  induction N with
  | nil =>
    intro g g' hg _ h
    rw [show applyList [] g = some g from rfl] at h
    rw [← Option.some_inj.mp h]
    exact hg
  | cons hd t ih =>
    intro g g' hg hN h
    obtain ⟨q, s⟩ := hd
    obtain ⟨c, hc, hrest⟩ := applyList_cons_some h
    obtain ⟨-, -, hceq⟩ := fsRename_eq_some hc
    have hsmem : s ∈ List.map Prod.snd ((q, s) :: t) :=
      List.mem_map_of_mem Prod.snd (List.mem_cons_self (q, s) t)
    have hxs : x ≠ s := by
      intro hx
      rw [hx] at hN
      exact hN hsmem
    have hxc : x ∉ c := by
      rw [hceq]
      intro hx
      rcases Finset.mem_insert.mp hx with hx | hx
      · exact hxs hx
      · exact hg (Finset.mem_of_mem_erase hx)
    have hNt : x ∉ t.map Prod.snd := by
      intro hx
      rcases List.mem_map.mp hx with ⟨pr, hpr, hsnd⟩
      exact hN (List.mem_map.mpr ⟨pr, List.mem_cons_of_mem (q, s) hpr, hsnd⟩)
    exact ih hxc hNt hrest

theorem applyList_consumed {L : List (String × String)}
    {M : List (String × String)} {p r : String} {N : List (String × String)}
    {g g' : Finset String}
    (hA : applyList L g = some g') (hL : L = M ++ (p, r) :: N) (hne : p ≠ r)
    (hnot : p ∉ N.map Prod.snd) : p ∉ g' := by
  subst hL
  rw [applyList_append] at hA
  cases hM : applyList M g with
  | none => rw [hM] at hA; exact Option.noConfusion hA
  | some c₀ =>
    rw [hM] at hA
    obtain ⟨c₁, hc, hrest⟩ := applyList_cons_some hA
    obtain ⟨-, -, hceq⟩ := fsRename_eq_some hc
    have hp : p ∉ c₁ := by
      rw [hceq]
      intro hx
      rcases Finset.mem_insert.mp hx with hx | hx
      · exact hne hx
      · exact (Finset.mem_erase.mp hx).1 rfl
    exact applyList_not_mem hp hnot hrest

theorem undoList_src_mem :
    ∀ {M : List (String × String)} {p r : String} {N : List (String × String)}
      {g g' : Finset String},
    undoList (M ++ (p, r) :: N) g = some g' → r ∈ g ∨ r ∈ M.map Prod.fst := by
  intro M p r N g g' h
  rw [undoList_eq_applyList_swap, List.map_append, List.map_cons] at h
  have h' := applyList_fst_mem (M := M.map Prod.swap) (p := r) (r := p) h
  rcases h' with hr | hr
  · exact Or.inl hr
  · right
    rw [List.map_map] at hr
    have : (Prod.snd ∘ Prod.swap : String × String → String) = Prod.fst := by
      funext pr
      rfl
    rw [this] at hr
    exact hr

theorem snds_disjoint_of_nodup {L M N : List (String × String)} {p r : String}
    (hL : L = M ++ (p, r) :: N) (hnd : (L.map Prod.snd).Nodup) {x : String}
    (hx : x ∈ M.map Prod.snd) : x ∉ N.map Prod.snd := by
  subst hL
  rw [List.map_append, List.map_cons] at hnd
  rcases List.nodup_append.mp hnd with ⟨-, -, hdisj⟩
  intro hxN
  exact hdisj hx (List.mem_cons_of_mem r hxN)

theorem roundtrip_fst_mem_init {L : List (String × String)}
    {fs₀ fs₁ fs₂ : Finset String}
    (hnd : (L.map Prod.snd).Nodup)
    (hpr : ∀ pr ∈ L, pr.1 ≠ pr.2)
    (hA : applyList L fs₀ = some fs₁)
    (hU : undoList L fs₁ = some fs₂) :
    ∀ M p r N, L = M ++ (p, r) :: N → p ∈ fs₀ := by
  suffices hsuff : ∀ n M p r N, M.length ≤ n → L = M ++ (p, r) :: N → p ∈ fs₀ by
    intro M p r N hL
    exact hsuff M.length M p r N le_rfl hL
  intro n
  induction n with
  | zero =>
    intro M p r N hlen hL
    have hM : M = [] := List.length_eq_zero.mp (Nat.le_zero.mp hlen)
    subst hM
    rw [hL] at hA
    rcases applyList_fst_mem hA with hp | hp
    · exact hp
    · simp at hp
  | succ n ihn =>
    intro M p r N hlen hL
    have hA' : applyList (M ++ (p, r) :: N) fs₀ = some fs₁ := by rw [← hL]; exact hA
    rcases applyList_fst_mem hA' with hp | hp
    · exact hp
    · obtain ⟨pr', hpr', hsnd'⟩ := List.mem_map.mp hp
      obtain ⟨a, b⟩ := pr'
      have hb : b = p := hsnd'
      rw [hb] at hpr'
      obtain ⟨M₁, M₂, hM⟩ := List.append_of_mem hpr'
      have hL' : L = M₁ ++ (a, p) :: (M₂ ++ (p, r) :: N) := by
        rw [hL, hM]
        simp
      have hU' : undoList (M₁ ++ (a, p) :: (M₂ ++ (p, r) :: N)) fs₁ = some fs₂ := by
        rw [← hL']
        exact hU
      rcases undoList_src_mem hU' with hpf | hpf
      · exfalso
        have hne : p ≠ r := by
          apply hpr (p, r)
          rw [hL]
          exact List.mem_append_right M (List.mem_cons_self (p, r) N)
        have hnotN : p ∉ N.map Prod.snd := snds_disjoint_of_nodup hL hnd hp
        exact applyList_consumed hA hL hne hnotN hpf
      · obtain ⟨pr'', hpr'', hfst''⟩ := List.mem_map.mp hpf
        obtain ⟨c, d⟩ := pr''
        have hcp : c = p := hfst''
        rw [hcp] at hpr''
        obtain ⟨M₁a, M₁b, hM₁⟩ := List.append_of_mem hpr''
        have hL'' : L = M₁a ++ (p, d) :: (M₁b ++ (a, p) :: (M₂ ++ (p, r) :: N)) := by
          rw [hL', hM₁]
          simp
        have e1 : M.length = M₁.length + (M₂.length + 1) := by
          rw [hM]
          simp [List.length_append]
        have e2 : M₁.length = M₁a.length + (M₁b.length + 1) := by
          rw [hM₁]
          simp [List.length_append]
        have hM₁alen : M₁a.length ≤ n := by omega
        exact ihn M₁a p d _ hM₁alen hL''

theorem nodup_fst_of_splits {L : List (String × String)}
    (h : ∀ M pr N, L = M ++ pr :: N → pr.1 ∉ N.map Prod.fst) :
    (L.map Prod.fst).Nodup := by
  induction L with
  | nil => simp
  | cons a t ih =>
    rw [List.map_cons, List.nodup_cons]
    refine ⟨h [] a t rfl, ih ?_⟩
    intro M pr N hL
    exact h (a :: M) pr N (by rw [hL]; rfl)

theorem roundtrip_fst_nodup {L : List (String × String)}
    {fs₀ fs₁ fs₂ : Finset String}
    (hnd : (L.map Prod.snd).Nodup)
    (hsf : ∀ pr ∈ L, pr.2 ∉ fs₀)
    (hpr : ∀ pr ∈ L, pr.1 ≠ pr.2)
    (hA : applyList L fs₀ = some fs₁)
    (hU : undoList L fs₁ = some fs₂) :
    (L.map Prod.fst).Nodup := by
  apply nodup_fst_of_splits
  intro M pr N hL
  obtain ⟨p, rr⟩ := pr
  intro hmem
  obtain ⟨qr, hqr, hqfst⟩ := List.mem_map.mp hmem
  obtain ⟨c, s⟩ := qr
  have hcp : c = p := hqfst
  subst hcp
  obtain ⟨N₁, N₂, hN⟩ := List.append_of_mem hqr
  have hL2 : L = (M ++ (c, rr) :: N₁) ++ (c, s) :: N₂ := by
    rw [hL, hN]
    simp
  have hpfs : c ∈ fs₀ :=
    roundtrip_fst_mem_init hnd hpr hA hU M c rr N hL
  have hpns : c ∉ L.map Prod.snd := by
    intro hx
    obtain ⟨qr2, hqr2, hsnd2⟩ := List.mem_map.mp hx
    have hq := hsf qr2 hqr2
    rw [hsnd2] at hq
    exact hq hpfs
  have hA2 : applyList ((M ++ (c, rr) :: N₁) ++ (c, s) :: N₂) fs₀ = some fs₁ := by
    rw [← hL2]
    exact hA
  rw [applyList_append] at hA2
  cases hpre : applyList (M ++ (c, rr) :: N₁) fs₀ with
  | none =>
    rw [hpre] at hA2
    exact Option.noConfusion hA2
  | some c₂ =>
    rw [hpre] at hA2
    obtain ⟨c₃, hstep, -⟩ := applyList_cons_some hA2
    have hpc₂ : c ∈ c₂ := (fsRename_eq_some hstep).1
    have hne : c ≠ rr := by
      apply hpr (c, rr)
      rw [hL]
      exact List.mem_append_right M (List.mem_cons_self (c, rr) N)
    have hnotN₁ : c ∉ N₁.map Prod.snd := by
      intro hx
      obtain ⟨qr3, h3, h3s⟩ := List.mem_map.mp hx
      apply hpns
      refine List.mem_map.mpr ⟨qr3, ?_, h3s⟩
      rw [hL, hN]
      exact List.mem_append_right M (List.mem_cons_of_mem (c, rr)
        (List.mem_append_left _ h3))
    exact applyList_consumed hpre rfl hne hnotN₁ hpc₂

theorem applyList_sep_char :
    ∀ (L : List (String × String)) (g g' : Finset String),
    (∀ pr ∈ L, pr.1 ∈ g) →
    (L.map Prod.fst).Nodup →
    (∀ pr ∈ L, pr.2 ∉ g) →
    (L.map Prod.snd).Nodup →
    (∀ pr qr, pr ∈ L → qr ∈ L → pr.1 ≠ qr.2) →
    applyList L g = some g' →
    ∀ x, x ∈ g' ↔ ((x ∈ g ∧ x ∉ L.map Prod.fst) ∨ x ∈ L.map Prod.snd) := by
  intro L
  induction L with
  | nil =>
    intro g g' _ _ _ _ _ h x
    rw [show applyList [] g = some g from rfl] at h
    rw [← Option.some_inj.mp h]
    simp
  | cons hd t ih =>
    intro g g' hfst hfnd hsnd hsnd_nd hdisj h x
    obtain ⟨p, r⟩ := hd
    obtain ⟨c, hc, hrest⟩ := applyList_cons_some h
    obtain ⟨hpg, hrg, hceq⟩ := fsRename_eq_some hc
    have hpfnd : p ∉ t.map Prod.fst := by
      rw [List.map_cons, List.nodup_cons] at hfnd
      exact hfnd.1
    have hrsnd : r ∉ t.map Prod.snd := by
      rw [List.map_cons, List.nodup_cons] at hsnd_nd
      exact hsnd_nd.1
    have hrfst : r ∉ t.map Prod.fst := by
      intro hx
      obtain ⟨qr, hqr, hq⟩ := List.mem_map.mp hx
      exact hdisj qr (p, r) (List.mem_cons_of_mem _ hqr)
        (List.mem_cons_self _ _) hq
    have ihfst : ∀ pr ∈ t, pr.1 ∈ c := by
      intro pr hprt
      rw [hceq]
      apply Finset.mem_insert_of_mem
      rw [Finset.mem_erase]
      refine ⟨?_, hfst pr (List.mem_cons_of_mem _ hprt)⟩
      intro hx
      exact hpfnd (hx ▸ List.mem_map_of_mem Prod.fst hprt)
    have ihsnd : ∀ pr ∈ t, pr.2 ∉ c := by
      intro pr hprt hx
      rw [hceq] at hx
      rcases Finset.mem_insert.mp hx with hx | hx
      · exact hrsnd (hx ▸ List.mem_map_of_mem Prod.snd hprt)
      · exact hsnd pr (List.mem_cons_of_mem _ hprt) (Finset.mem_of_mem_erase hx)
    have ihfnd : (t.map Prod.fst).Nodup := by
      rw [List.map_cons, List.nodup_cons] at hfnd
      exact hfnd.2
    have ihsndnd : (t.map Prod.snd).Nodup := by
      rw [List.map_cons, List.nodup_cons] at hsnd_nd
      exact hsnd_nd.2
    have ihdisj : ∀ pr qr, pr ∈ t → qr ∈ t → pr.1 ≠ qr.2 :=
      fun pr qr h1 h2 => hdisj pr qr (List.mem_cons_of_mem _ h1)
        (List.mem_cons_of_mem _ h2)
    have hIH := ih c g' ihfst ihfnd ihsnd ihsndnd ihdisj hrest x
    rw [hIH]
    have hcx : x ∈ c ↔ x = r ∨ (x ≠ p ∧ x ∈ g) := by
      rw [hceq]
      simp [Finset.mem_insert, Finset.mem_erase]
    rw [hcx]
    simp only [List.map_cons, List.mem_cons]
    constructor
    · rintro (⟨hxl, hxnf⟩ | hxs)
      · rcases hxl with hxr | ⟨hxp, hxg⟩
        · right
          left
          exact hxr
        · left
          refine ⟨hxg, ?_⟩
          rintro (h1 | h1)
          · exact hxp h1
          · exact hxnf h1
      · right
        right
        exact hxs
    · rintro (⟨hxg, hxnf⟩ | hxr | hxs)
      · left
        exact ⟨Or.inr ⟨fun h1 => hxnf (Or.inl h1), hxg⟩,
          fun h1 => hxnf (Or.inr h1)⟩
      · subst hxr
        left
        exact ⟨Or.inl rfl, hrfst⟩
      · right
        exact hxs

theorem sep_roundtrip {L : List (String × String)} {fs₀ fs₁ fs₂ : Finset String}
    (hfst : ∀ pr ∈ L, pr.1 ∈ fs₀)
    (hfnd : (L.map Prod.fst).Nodup)
    (hsnd : ∀ pr ∈ L, pr.2 ∉ fs₀)
    (hsndnd : (L.map Prod.snd).Nodup)
    (hdisj : ∀ pr qr, pr ∈ L → qr ∈ L → pr.1 ≠ qr.2)
    (hA : applyList L fs₀ = some fs₁)
    (hU : undoList L fs₁ = some fs₂) :
    fs₂ = fs₀ := by
  have char₁ := applyList_sep_char L fs₀ fs₁ hfst hfnd hsnd hsndnd hdisj hA
  rw [undoList_eq_applyList_swap] at hU
  have hswapfst : (L.map Prod.swap).map Prod.fst = L.map Prod.snd := by
    rw [List.map_map]
    congr 1
  have hswapsnd : (L.map Prod.swap).map Prod.snd = L.map Prod.fst := by
    rw [List.map_map]
    congr 1
  have hfst2 : ∀ pr ∈ L.map Prod.swap, pr.1 ∈ fs₁ := by
    intro pr hpr
    obtain ⟨qr, hqr, hq⟩ := List.mem_map.mp hpr
    rw [← hq]
    exact (char₁ qr.2).mpr (Or.inr (List.mem_map_of_mem Prod.snd hqr))
  have hsnd2 : ∀ pr ∈ L.map Prod.swap, pr.2 ∉ fs₁ := by
    intro pr hpr hx
    obtain ⟨qr, hqr, hq⟩ := List.mem_map.mp hpr
    rw [← hq] at hx
    rcases (char₁ qr.1).mp hx with ⟨-, hnf⟩ | hs
    · exact hnf (List.mem_map_of_mem Prod.fst hqr)
    · obtain ⟨qr2, hqr2, hq2⟩ := List.mem_map.mp hs
      exact hdisj qr qr2 hqr hqr2 hq2.symm
  have hfnd2 : ((L.map Prod.swap).map Prod.fst).Nodup := by
    rw [hswapfst]
    exact hsndnd
  have hsndnd2 : ((L.map Prod.swap).map Prod.snd).Nodup := by
    rw [hswapsnd]
    exact hfnd
  have hdisj2 : ∀ pr qr, pr ∈ L.map Prod.swap → qr ∈ L.map Prod.swap →
      pr.1 ≠ qr.2 := by
    intro pr qr h1 h2
    obtain ⟨a, ha, ha2⟩ := List.mem_map.mp h1
    obtain ⟨b, hb, hb2⟩ := List.mem_map.mp h2
    rw [← ha2, ← hb2]
    intro hx
    exact hdisj b a hb ha hx.symm
  have char₂ := applyList_sep_char (L.map Prod.swap) fs₁ fs₂ hfst2 hfnd2 hsnd2
    hsndnd2 hdisj2 hU
  apply Finset.ext
  intro x
  rw [char₂ x, hswapfst, hswapsnd, char₁ x]
  by_cases hxF : x ∈ L.map Prod.fst
  · have hx0 : x ∈ fs₀ := by
      obtain ⟨qr, hqr, hq⟩ := List.mem_map.mp hxF
      rw [← hq]
      exact hfst qr hqr
    simp [hxF, hx0]
  · by_cases hxS : x ∈ L.map Prod.snd
    · have hx0 : x ∉ fs₀ := by
        obtain ⟨qr, hqr, hq⟩ := List.mem_map.mp hxS
        rw [← hq]
        exact hsnd qr hqr
      simp [hxF, hxS, hx0]
    · simp [hxF, hxS]

theorem renamePairs_self : ∀ l : List String, renamePairs l l = [] := by
  intro l
  induction l with
  | nil => rfl
  | cons a t ih =>
    show List.filter _ ((a, a) :: t.zip t) = []
    rw [List.filter_cons_of_neg (by simp)]
    exact ih

/-- C4: when a recompute against the filesystem fs₀ succeeded with no
mistakes and published the renamed list, and every individual rename
performed by Apply and then by Undo succeeds, the filesystem is restored
to exactly the original path set. -/
theorem c4_apply_undo_roundtrip (E : RegexEngine) (validPath : String → Bool)
    (inp : RecomputeInput) (old : Option (List String)) (fs₀ : Finset String)
    (renamed : List String) (fs₁ fs₂ : Finset String)
    (hmist : (recompute E validPath (fun s => decide (s ∈ fs₀)) inp old).mistakes = [])
    (hren : (recompute E validPath (fun s => decide (s ∈ fs₀)) inp
      old).renamedPaths = some renamed)
    (hA : applyRenaming inp.pickedPaths renamed fs₀ = some fs₁)
    (hU : undoRenaming inp.pickedPaths renamed fs₁ = some fs₂) :
    fs₂ = fs₀ := by
  by_cases hc : regexCompiles E inp.regex = true ∧ inp.replacePattern ≠ ""
  · rcases hra : renameAll E inp.regex inp.replacePattern inp.renameTarget
      inp.pickedPaths with _ | rs
    · rw [recompute_pos hc.1 hc.2, hra] at hmist
      unfold recomputeSubBranch at hmist
      simp at hmist
    · rw [recompute_pos hc.1 hc.2, hra] at hmist hren
      have hmist' : regexMistakes E inp.regex ++ detectRenamedPathsMistakes
          validPath (fun s => decide (s ∈ fs₀)) rs inp.pickedPaths = [] := hmist
      have hren' : (some rs : Option (List String)) = some renamed := hren
      have hrs : rs = renamed := Option.some_inj.mp hren'
      subst hrs
      have hdet : detectRenamedPathsMistakes validPath
          (fun s => decide (s ∈ fs₀)) rs inp.pickedPaths = [] :=
        (List.append_eq_nil.mp hmist').2
      obtain ⟨hlen, -⟩ := renameAll_some hra
      have hpr : ∀ pr ∈ renamePairs inp.pickedPaths rs, pr.1 ≠ pr.2 := by
        intro pr hp
        have hp2 : pr ∈ (inp.pickedPaths.zip rs).filter
            (fun q => decide (q.1 ≠ q.2)) := hp
        have hres := (List.mem_filter.mp hp2).2
        exact of_decide_eq_true hres
      have hidx : ∀ pr ∈ renamePairs inp.pickedPaths rs, ∃ i,
          inp.pickedPaths.get? i = some pr.1 ∧ rs.get? i = some pr.2 := by
        intro pr hp
        have hp2 : pr ∈ (inp.pickedPaths.zip rs).filter
            (fun q => decide (q.1 ≠ q.2)) := hp
        have hz : pr ∈ inp.pickedPaths.zip rs := List.mem_of_mem_filter hp2
        obtain ⟨i, hi⟩ := List.get?_of_mem hz
        exact ⟨i, (zip_get?_eq_some _ _ i pr.1 pr.2).mp hi⟩
      have hsf : ∀ pr ∈ renamePairs inp.pickedPaths rs, pr.2 ∉ fs₀ := by
        intro pr hp hmem
        obtain ⟨i, hi1, hi2⟩ := hidx pr hp
        have hne := hpr pr hp
        have hmem2 : Mistake.alreadyExists i ∈ detectRenamedPathsMistakes
            validPath (fun s => decide (s ∈ fs₀)) rs inp.pickedPaths := by
          unfold detectRenamedPathsMistakes
          rw [alreadyExists_mem_detectAux]
          exact ⟨i, pr, (zip_get?_eq_some _ _ i pr.1 pr.2).mpr ⟨hi1, hi2⟩,
            by omega, Ne.symm hne, decide_eq_true hmem⟩
        rw [hdet] at hmem2
        exact absurd hmem2 (List.not_mem_nil _)
      have hrsnd : rs.Nodup := by
        rw [List.nodup_iff_count_le_one]
        intro u
        by_cases hu : u ∈ rs
        · obtain ⟨j, hj⟩ := List.get?_of_mem hu
          have hcnt := detect_dup_count validPath (fun s => decide (s ∈ fs₀))
            rs inp.pickedPaths hlen.symm j u hj
          rw [hdet, List.count_nil] at hcnt
          by_cases h2 : 2 ≤ rs.count u
          · rw [if_pos h2] at hcnt
            exact absurd hcnt (by simp)
          · omega
        · rw [List.count_eq_zero.mpr hu]
          omega
      have hsndnd : ((renamePairs inp.pickedPaths rs).map Prod.snd).Nodup := by
        have hsub : List.Sublist
            ((renamePairs inp.pickedPaths rs).map Prod.snd)
            ((inp.pickedPaths.zip rs).map Prod.snd) :=
          (List.filter_sublist _).map Prod.snd
        rw [zip_map_snd_eq hlen.symm] at hsub
        exact hrsnd.sublist hsub
      have hA' : applyList (renamePairs inp.pickedPaths rs) fs₀ = some fs₁ := hA
      have hU' : undoList (renamePairs inp.pickedPaths rs) fs₁ = some fs₂ := hU
      have hG1 : ∀ pr ∈ renamePairs inp.pickedPaths rs, pr.1 ∈ fs₀ := by
        intro pr hp
        obtain ⟨M, N, hMN⟩ := List.append_of_mem hp
        obtain ⟨a, b⟩ := pr
        exact roundtrip_fst_mem_init hsndnd hpr hA' hU' M a b N hMN
      have hG2 : ((renamePairs inp.pickedPaths rs).map Prod.fst).Nodup :=
        roundtrip_fst_nodup hsndnd hsf hpr hA' hU'
      have hdisj : ∀ pr qr, pr ∈ renamePairs inp.pickedPaths rs →
          qr ∈ renamePairs inp.pickedPaths rs → pr.1 ≠ qr.2 := by
        intro pr qr h1 h2 hx
        exact hsf qr h2 (hx ▸ hG1 pr h1)
      exact sep_roundtrip hG1 hG2 hsf hsndnd hdisj hA' hU'
  · rw [recompute_neg hc] at hren
    have hpick : inp.pickedPaths = renamed := Option.some_inj.mp hren
    rw [← hpick] at hA hU
    unfold applyRenaming at hA
    unfold undoRenaming at hU
    rw [renamePairs_self] at hA hU
    rw [show applyList [] fs₀ = some fs₀ from rfl] at hA
    rw [show undoList [] fs₁ = some fs₁ from rfl] at hU
    rw [← Option.some_inj.mp hU, ← Option.some_inj.mp hA]

/-- Witness for C4 at a concrete input: picking the file "a" on a
filesystem containing only "a", renaming it to "b" and undoing restores
the original set. -/
theorem c4_apply_undo_roundtrip_witness :
    (recompute litEngine (fun _ => true)
      (fun s => decide (s ∈ ({"a"} : Finset String)))
      { pickedPaths := ["a"], regex := "a", replacePattern := "b",
        renameTarget := RenameTarget.full } none).mistakes = [] ∧
    (recompute litEngine (fun _ => true)
      (fun s => decide (s ∈ ({"a"} : Finset String)))
      { pickedPaths := ["a"], regex := "a", replacePattern := "b",
        renameTarget := RenameTarget.full } none).renamedPaths = some ["b"] ∧
    applyRenaming ["a"] ["b"] ({"a"} : Finset String) = some ({"b"} : Finset String) ∧
    undoRenaming ["a"] ["b"] ({"b"} : Finset String) = some ({"a"} : Finset String) ∧
    ({"a"} : Finset String) = ({"a"} : Finset String) :=
  ⟨by decide, by decide, by decide, by decide,
   c4_apply_undo_roundtrip litEngine (fun _ => true)
    { pickedPaths := ["a"], regex := "a", replacePattern := "b",
      renameTarget := RenameTarget.full } none ({"a"} : Finset String) ["b"]
    ({"b"} : Finset String) ({"a"} : Finset String)
    (by decide) (by decide) (by decide) (by decide)⟩

end PatternRenamer
